import Mathlib

/-!
Verification of the `kelindar/approx` library: Morris-style probabilistic
counters (`count.go`), the Count-Min sketch built on plain `uint32` counters
(`cms.go`) and on packed 16-bit counters (the packed-sketch revision), the
bounded min-heap (`minheap.go`) and the top-K tracker (`topk.go`).

Modelling conventions:
* Machine integers are `Nat` with explicit `% 2^w` at the points where the Go
  code can overflow (`uint32` counter increments, `uint16` counter increments,
  the `uint64` total counter).
* The floating-point Morris tables are modelled by exact rational / integer
  arithmetic: `n(v, a) = a*((1+1/a)^v - 1)` is the exact real value, and Go's
  `uint(...)` truncation of it is the exact floor, computed in `Nat`.  The
  claims proved here depend only on the integer parts and on the sign of the
  `delta` tables, which the float computation gets exactly right (the exact
  values sit far from integer boundaries, see `n8tab_255` / `n16tab_65535`).
* Go's thread-local random source `roll32` is modelled by an arbitrary `Nat`
  seed mapped through the exact arithmetic of `roll32`
  (`float32(uint32(x)<<8>>8) / (1<<24)`, which is exact in float32).
* Fallible constructors return `Except String`; a Go runtime panic is
  modelled as `Option.none`.
-/

/-- Exact integer part of the Morris estimate `n(c, 31) = 31*((32/31)^c - 1)`
for the 8-bit counter table `n8` of `count.go`: `31*((32/31)^c - 1)` equals
`(32^c - 31^c)/31^(c-1)` exactly, and Go truncates toward zero.  The source
overrides the entry at `c = 1` with the special case `lookup[1] = 1` (the
exact value there is `1` as well, but the float computation truncates to 0). -/
def n8tab (c : Nat) : Nat :=
  if c = 1 then 1 else (32 ^ c - 31 ^ c) / 31 ^ (c - 1)

/-- Exact integer part of the Morris estimate `n(c, 5000)` for the 16-bit
counter table `n16` of `count.go`, with the same special case at `c = 1`. -/
def n16tab (c : Nat) : Nat :=
  if c = 1 then 1 else (5001 ^ c - 5000 ^ c) / 5000 ^ (c - 1)

/-- Exact rational value of the Morris estimate `n(c, 31)` (used to model the
`d8` delta table without float rounding). -/
def nQ8 (c : Nat) : ℚ := 31 * ((32 / 31 : ℚ) ^ c - 1)

/-- Exact rational value of the Morris estimate `n(c, 5000)`. -/
def nQ16 (c : Nat) : ℚ := 5000 * ((5001 / 5000 : ℚ) ^ c - 1)

/-- Model of the `d8` delta table of `count.go`: `d8[c] = 1/(n(c+1) - n(c))`
for `c < 255`, and the source explicitly stores `0` at the maximal index
(`lookup[math.MaxUint8] = 0`, "no chance to increment"). -/
def d8 (c : Nat) : ℚ :=
  if c = 255 then 0 else 1 / (nQ8 (c + 1) - nQ8 c)

/-- Model of the `d16` delta table of `count.go`: the filling loop stops at
index `65534`, so the entry at the maximal index `65535` keeps its zero
initial value. -/
def d16 (c : Nat) : ℚ :=
  if c = 65535 then 0 else 1 / (nQ16 (c + 1) - nQ16 c)

/-- Model of `roll32` from `count.go`:
`float32(uint32(runtime_rand())<<8>>8) / (1 << 24)`.  The shifts keep the low
24 bits of the 32-bit truncation of the random word, and both the integer and
the division by `2^24` are exact in float32, so the result is exactly the
rational below. -/
def roll32 (r : Nat) : ℚ :=
  ((r % 2 ^ 32 * 2 ^ 8 % 2 ^ 32 / 2 ^ 8 : Nat) : ℚ) / (2 ^ 24 : ℚ)

/-- Model of `Count8.Estimate` (pure table lookup). -/
def count8Estimate (c : Nat) : Nat := n8tab c

/-- Model of `Count16.Estimate` (pure table lookup). -/
def count16Estimate (c : Nat) : Nat := n16tab c

/-- Model of `Count8.Increment` from `count.go`: draw one roll, advance the
stored `uint8` when the roll is below `d8[c]` (the `(*c)++` wraps mod `2^8`),
and return the estimate of the resulting stored value.  The pair is
`(new stored value, returned estimate)`. -/
def count8Increment (c : Nat) (r : Nat) : Nat × Nat :=
  let c2 := if roll32 r < d8 c then (c + 1) % 256 else c
  (c2, n8tab c2)

/-- Model of `Count16.Increment` from `count.go`. -/
def count16Increment (c : Nat) (r : Nat) : Nat × Nat :=
  let c2 := if roll32 r < d16 c then (c + 1) % 65536 else c
  (c2, n16tab c2)

/-- Stored value of a `Count8` after a sequence of `Increment` calls whose
random rolls come from the seeds `rs`. -/
def count8Run (c : Nat) (rs : List Nat) : Nat :=
  rs.foldl (fun a r => (count8Increment a r).1) c

/-- Stored value of a `Count16` after a sequence of `Increment` calls. -/
def count16Run (c : Nat) (rs : List Nat) : Nat :=
  rs.foldl (fun a r => (count16Increment a r).1) c

theorem roll32_nonneg (r : Nat) : 0 ≤ roll32 r := by
  unfold roll32
  positivity

theorem n8tab_255 : n8tab 255 = 101681 := by decide

theorem n16tab_65535 : n16tab 65535 = 2458655843 := by
  rw [n16tab]
  norm_num

theorem n8tab_step (c : Nat) : n8tab c ≤ n8tab (c + 1) := by
  match c with
  | 0 => decide
  | 1 => decide
  | (c + 2) =>
    rw [show n8tab (c + 2) = (32 ^ (c + 2) - 31 ^ (c + 2)) / 31 ^ (c + 1) by
          rw [n8tab]; simp]
    rw [show n8tab (c + 3) = (32 ^ (c + 3) - 31 ^ (c + 3)) / 31 ^ (c + 2) by
          rw [n8tab]; simp]
    rw [show (32 ^ (c + 2) - 31 ^ (c + 2)) / 31 ^ (c + 1)
          = 31 * (32 ^ (c + 2) - 31 ^ (c + 2)) / (31 * 31 ^ (c + 1)) by
          rw [Nat.mul_div_mul_left _ _ (by norm_num)]]
    rw [show 31 * 31 ^ (c + 1) = 31 ^ (c + 2) by ring]
    apply Nat.div_le_div_right
    have hxy : (31 : Nat) ^ (c + 2) ≤ 32 ^ (c + 2) :=
      Nat.pow_le_pow_left (by norm_num) _
    have h3 : (32 : Nat) ^ (c + 3) = 32 * 32 ^ (c + 2) := by ring
    have h4 : (31 : Nat) ^ (c + 3) = 31 * 31 ^ (c + 2) := by ring
    omega

theorem n16tab_step (c : Nat) : n16tab c ≤ n16tab (c + 1) := by
  match c with
  | 0 => decide
  | 1 => decide
  | (c + 2) =>
    rw [show n16tab (c + 2) = (5001 ^ (c + 2) - 5000 ^ (c + 2)) / 5000 ^ (c + 1) by
          rw [n16tab]; simp]
    rw [show n16tab (c + 3) = (5001 ^ (c + 3) - 5000 ^ (c + 3)) / 5000 ^ (c + 2) by
          rw [n16tab]; simp]
    rw [show (5001 ^ (c + 2) - 5000 ^ (c + 2)) / 5000 ^ (c + 1)
          = 5000 * (5001 ^ (c + 2) - 5000 ^ (c + 2)) / (5000 * 5000 ^ (c + 1)) by
          rw [Nat.mul_div_mul_left _ _ (by norm_num)]]
    rw [show 5000 * 5000 ^ (c + 1) = 5000 ^ (c + 2) by ring]
    apply Nat.div_le_div_right
    have hxy : (5000 : Nat) ^ (c + 2) ≤ 5001 ^ (c + 2) :=
      Nat.pow_le_pow_left (by norm_num) _
    have h3 : (5001 : Nat) ^ (c + 3) = 5001 * 5001 ^ (c + 2) := by ring
    have h4 : (5000 : Nat) ^ (c + 3) = 5000 * 5000 ^ (c + 2) := by ring
    omega

theorem n8tab_mono {c d : Nat} (h : c ≤ d) : n8tab c ≤ n8tab d := by
  induction d, h using Nat.le_induction with
  | base => exact le_refl _
  | succ d _ ih => exact le_trans ih (n8tab_step d)

theorem n16tab_mono {c d : Nat} (h : c ≤ d) : n16tab c ≤ n16tab d := by
  induction d, h using Nat.le_induction with
  | base => exact le_refl _
  | succ d _ ih => exact le_trans ih (n16tab_step d)

theorem count8Increment_cases (c r : Nat) (hc : c ≤ 255) :
    (count8Increment c r).1 = c ∨ ((count8Increment c r).1 = c + 1 ∧ c < 255) := by
  unfold count8Increment
  by_cases hroll : roll32 r < d8 c
  · rcases Nat.lt_or_ge c 255 with hlt | hge
    · right
      simp only [hroll, if_pos]
      exact ⟨Nat.mod_eq_of_lt (by omega), hlt⟩
    · exfalso
      have hc255 : c = 255 := le_antisymm hc hge
      rw [hc255] at hroll
      have : d8 255 = 0 := by rw [d8]; simp
      rw [this] at hroll
      exact absurd hroll (not_lt.mpr (roll32_nonneg r))
  · left; simp [hroll]

theorem count16Increment_cases (c r : Nat) (hc : c ≤ 65535) :
    (count16Increment c r).1 = c ∨ ((count16Increment c r).1 = c + 1 ∧ c < 65535) := by
  unfold count16Increment
  by_cases hroll : roll32 r < d16 c
  · rcases Nat.lt_or_ge c 65535 with hlt | hge
    · right
      simp only [hroll, if_pos]
      exact ⟨Nat.mod_eq_of_lt (by omega), hlt⟩
    · exfalso
      have hc65535 : c = 65535 := le_antisymm hc hge
      rw [hc65535] at hroll
      have : d16 65535 = 0 := by rw [d16]; simp
      rw [this] at hroll
      exact absurd hroll (not_lt.mpr (roll32_nonneg r))
  · left; simp [hroll]

theorem count8Run_le_and_mono (c : Nat) (rs : List Nat) (hc : c ≤ 255) :
    count8Run c rs ≤ 255 ∧ c ≤ count8Run c rs := by
  induction rs generalizing c with
  | nil => exact ⟨hc, le_refl c⟩
  | cons r rs ih =>
    rw [show count8Run c (r :: rs) = count8Run (count8Increment c r).1 rs from rfl]
    rcases count8Increment_cases c r hc with h | ⟨h, hlt⟩
    · rw [h]; exact ih c hc
    · rw [h]
      rcases ih (c + 1) (by omega) with ⟨h1, h2⟩
      exact ⟨h1, by omega⟩

theorem count16Run_le_and_mono (c : Nat) (rs : List Nat) (hc : c ≤ 65535) :
    count16Run c rs ≤ 65535 ∧ c ≤ count16Run c rs := by
  induction rs generalizing c with
  | nil => exact ⟨hc, le_refl c⟩
  | cons r rs ih =>
    rw [show count16Run c (r :: rs) = count16Run (count16Increment c r).1 rs from rfl]
    rcases count16Increment_cases c r hc with h | ⟨h, hlt⟩
    · rw [h]; exact ih c hc
    · rw [h]
      rcases ih (c + 1) (by omega) with ⟨h1, h2⟩
      exact ⟨h1, by omega⟩

theorem count8Run_take (c : Nat) (rs : List Nat) {i j : Nat} (hij : i ≤ j) :
    count8Run c (rs.take j) = count8Run (count8Run c (rs.take i)) ((rs.drop i).take (j - i)) := by
  unfold count8Run
  nth_rewrite 1 [show j = i + (j - i) by omega]
  rw [List.take_add, List.foldl_append]

theorem count16Run_take (c : Nat) (rs : List Nat) {i j : Nat} (hij : i ≤ j) :
    count16Run c (rs.take j) = count16Run (count16Run c (rs.take i)) ((rs.drop i).take (j - i)) := by
  unfold count16Run
  nth_rewrite 1 [show j = i + (j - i) by omega]
  rw [List.take_add, List.foldl_append]

/-- C2: for every counter (`Count8` or `Count16`), every starting stored
value (within the counter's width), and every sequence of `Increment()` calls
with arbitrary random rolls, the estimate is non-decreasing across the
sequence: after any prefix of the increments, the estimate is `≥` the
estimate after any shorter prefix. -/
theorem c2_estimate_monotone (c8 c16 : Nat) (h8 : c8 ≤ 255) (h16 : c16 ≤ 65535)
    (rs : List Nat) (i j : Nat) (hij : i ≤ j) :
    count8Estimate (count8Run c8 (rs.take i)) ≤ count8Estimate (count8Run c8 (rs.take j)) ∧
    count16Estimate (count16Run c16 (rs.take i)) ≤ count16Estimate (count16Run c16 (rs.take j)) := by
  constructor
  · rw [count8Run_take c8 rs hij]
    have h1 : count8Run c8 (rs.take i) ≤ 255 := (count8Run_le_and_mono c8 _ h8).1
    exact n8tab_mono (count8Run_le_and_mono _ _ h1).2
  · rw [count16Run_take c16 rs hij]
    have h1 : count16Run c16 (rs.take i) ≤ 65535 := (count16Run_le_and_mono c16 _ h16).1
    exact n16tab_mono (count16Run_le_and_mono _ _ h1).2

/-- Witness for C2 at a concrete input: counters starting at 0, one
increment with seed 0, prefixes of length 0 and 1. -/
theorem c2_estimate_monotone_witness :
    (0 : Nat) ≤ 255 ∧ (0 : Nat) ≤ 65535 ∧ (0 : Nat) ≤ 1 ∧
    (count8Estimate (count8Run 0 ([0].take 0)) ≤ count8Estimate (count8Run 0 ([0].take 1)) ∧
     count16Estimate (count16Run 0 ([0].take 0)) ≤ count16Estimate (count16Run 0 ([0].take 1))) :=
  ⟨by decide, by decide, by decide,
   c2_estimate_monotone 0 0 (by decide) (by decide) [0] 0 1 (by decide)⟩

/-- C3: at the maximum stored value (255 for `Count8`, 65535 for `Count16`),
every further `Increment`, under every random roll, leaves the stored value
unchanged and returns the saturation constant (`MaxCount8 = 101681`,
`MaxCount16 = 2458655843`), which equals `Estimate()` at the maximum stored
value. -/
theorem c3_saturation (r : Nat) :
    count8Increment 255 r = (255, 101681) ∧
    count16Increment 65535 r = (65535, 2458655843) ∧
    count8Estimate 255 = 101681 ∧
    count16Estimate 65535 = 2458655843 := by
  have hd8 : d8 255 = 0 := by rw [d8]; simp
  have hd16 : d16 65535 = 0 := by rw [d16]; simp
  have hr8 : ¬(roll32 r < d8 255) := by
    rw [hd8]; exact not_lt.mpr (roll32_nonneg r)
  have hr16 : ¬(roll32 r < d16 65535) := by
    rw [hd16]; exact not_lt.mpr (roll32_nonneg r)
  refine ⟨?_, ?_, n8tab_255, n16tab_65535⟩
  · unfold count8Increment
    simp only [hr8, if_neg, not_false_iff]
    rw [n8tab_255]
  · unfold count16Increment
    simp only [hr16, if_neg, not_false_iff]
    rw [n16tab_65535]

/-- State of the `CountMin` sketch of `cms.go`: a `depth × width` flat array
of `uint32` counters (modelled as a total function on flat indices) plus the
`uint64` total counter. -/
structure CountMin where
  total : Nat
  depth : Nat
  width : Nat
  counts : Nat → Nat

/-- Freshly allocated sketch (`make([]uint32, depth*width)` zero-fills). -/
def mkCountMin (depth width : Nat) : CountMin :=
  ⟨0, depth, width, fun _ => 0⟩

/-- Model of `NewCountMinWithSize` from `cms.go`: validates `depth ≤ 128` and
`width ≤ MaxInt32 = 2^31 - 1`, then allocates a zeroed sketch. -/
def newCountMinWithSize (depth width : Nat) : Except String CountMin :=
  if 128 < depth then .error "sketch: depth should be less than 128"
  else if 2 ^ 31 - 1 < width then .error "sketch: width should be less than MaxInt32"
  else .ok (mkCountMin depth width)

/-- Exact rational value of the float64 constant `math.E`
(bits `0x4005BF0A8B145769`, i.e. `6121026514868073 * 2^-51`). -/
def eF64 : ℚ := 6121026514868073 / 2251799813685248

/-- Rational approximation of Euler's number accurate to 24 decimal digits,
used to model `math.Ceil(math.Log x)`: the least `d` with `x ≤ e^d`. -/
def apprE : ℚ := 2718281828459045235360287 / 10 ^ 24

/-- Search loop for `lnCeil`: the least exponent `d` (starting from the given
`d`, with the given fuel) such that `x ≤ e^d`. -/
def lnCeilGo (x : ℚ) : Nat → Nat → Nat
  | d, 0 => d
  | d, fuel + 1 => if x ≤ apprE ^ d then d else lnCeilGo x (d + 1) fuel

/-- Model of `uint(math.Ceil(math.Log x))` for `x > 1`: the least natural `d`
with `x ≤ e^d` (searched up to 300, far beyond the validated `depth ≤ 128`).
Models the float64 log/ceil exactly whenever the true logarithm of `x` is not
within float error of an integer, which holds at every input reached here. -/
def lnCeil (x : ℚ) : Nat := lnCeilGo x 0 300

/-- Model of `NewCountMinWithEstimates` from `cms.go`: validates
`epsilon, confidence ∈ (0,1)` and derives `width = ⌈e/ε⌉`,
`depth = ⌈ln(1/(1-confidence))⌉`.  The float64 parameters are modelled as
exact rationals. -/
def newCountMinWithEstimates (epsilon confidence : ℚ) : Except String CountMin :=
  if epsilon ≤ 0 ∨ 1 ≤ epsilon then
    .error "sketch: value of epsilon should be in range of (0, 1)"
  else if confidence ≤ 0 ∨ 1 ≤ confidence then
    .error "sketch: value of delta should be in range of (0, 1)"
  else
    newCountMinWithSize (lnCeil (1 / (1 - confidence))) (⌈eF64 / epsilon⌉.toNat)

/-- Model of `NewCountMin` from `cms.go`: defaults `ε = 0.001`,
`confidence = 0.99`. -/
def newCountMin : Except String CountMin :=
  newCountMinWithEstimates (1 / 1000) (99 / 100)

/-- Flat index of the counter row `i` touches for a hash with halves
`lo = hash % 2^32` and `hi = hash / 2^32`: `i*width + (lo + i*hi) % width`
(`int(hx) % w` in the source; `hx = lo + i*hi < 2^39` never overflows). -/
def slotOf (width lo hi i : Nat) : Nat :=
  i * width + (lo + i * hi) % width

/-- One row step of `UpdateHash`: bump the row's counter (`atomic.AddUint32`
wraps modulo `2^32`) and fold the new value into the running minimum. -/
def cmUpdateRow (width lo hi : Nat) (acc : (Nat → Nat) × Nat) (i : Nat) :
    (Nat → Nat) × Nat :=
  let j := slotOf width lo hi i
  let v := (acc.1 j + 1) % 2 ^ 32
  (fun k => if k = j then v else acc.1 k, min acc.2 v)

/-- Model of `CountMin.UpdateHash` from `cms.go`: split the hash, increment
the total (a `uint64`), bump one counter per row and return the minimum of
the incremented values (the running minimum starts at `^uint32(0)`). -/
def cmUpdateHash (c : CountMin) (hash : Nat) : CountMin × Nat :=
  let lo := hash % 2 ^ 32
  let hi := hash / 2 ^ 32
  let z := (List.range c.depth).foldl (cmUpdateRow c.width lo hi) (c.counts, 2 ^ 32 - 1)
  ({ c with total := (c.total + 1) % 2 ^ 64, counts := z.1 }, z.2)

/-- Row-scanning loop of `CountMin.CountHash`: starting at row `i` with
`rem` rows left and running minimum `x`, loop while `i < depth && x > 0`. -/
def cmCountRows (counts : Nat → Nat) (width lo hi : Nat) : Nat → Nat → Nat → Nat
  | _, 0, x => x
  | i, rem + 1, x =>
    if 0 < x then
      cmCountRows counts width lo hi (i + 1) rem (min x (counts (slotOf width lo hi i)))
    else x

/-- Model of `CountMin.CountHash` from `cms.go`. -/
def cmCountHash (c : CountMin) (hash : Nat) : Nat :=
  cmCountRows c.counts c.width (hash % 2 ^ 32) (hash / 2 ^ 32) 0 c.depth (2 ^ 32 - 1)

/-- State after a sequence of `UpdateHash` calls. -/
def cmUpdateList (c : CountMin) (hs : List Nat) : CountMin :=
  hs.foldl (fun s h => (cmUpdateHash s h).1) c

/-- Every counter value of a reachable sketch state is a valid `uint32`. -/
def cmWF (c : CountMin) : Prop := ∀ j, c.counts j < 2 ^ 32

theorem slotOf_row_lt (width lo hi i : Nat) (hw : 0 < width) :
    i * width ≤ slotOf width lo hi i ∧ slotOf width lo hi i < i * width + width := by
  unfold slotOf
  have := Nat.mod_lt (lo + i * hi) hw
  omega

theorem slotOf_inj (width lo hi lo2 hi2 i i2 : Nat) (hw : 0 < width)
    (h : slotOf width lo hi i = slotOf width lo2 hi2 i2) : i = i2 := by
  rcases slotOf_row_lt width lo hi i hw with ⟨h1, h2⟩
  rcases slotOf_row_lt width lo2 hi2 i2 hw with ⟨h3, h4⟩
  rw [h] at h1 h2
  rcases Nat.lt_trichotomy i i2 with hlt | heq | hgt
  · exfalso
    have : i * width + width ≤ i2 * width := by
      calc i * width + width = (i + 1) * width := by ring
      _ ≤ i2 * width := Nat.mul_le_mul_right width hlt
    omega
  · exact heq
  · exfalso
    have : i2 * width + width ≤ i * width := by
      calc i2 * width + width = (i2 + 1) * width := by ring
      _ ≤ i * width := Nat.mul_le_mul_right width hgt
    omega

theorem cmUpdateRows_counts (width lo hi : Nat) (hw : 0 < width) (rs : List Nat)
    (hnd : rs.Nodup) (f : Nat → Nat) (x : Nat) (j : Nat) :
    (rs.foldl (cmUpdateRow width lo hi) (f, x)).1 j =
      if ∃ i ∈ rs, slotOf width lo hi i = j then (f j + 1) % 2 ^ 32 else f j := by
  induction rs generalizing f x with
  | nil => simp
  | cons r rest ih =>
    have hnd2 := hnd.of_cons
    have hrn : r ∉ rest := (List.nodup_cons.mp hnd).1
    rw [List.foldl_cons]
    by_cases hr : slotOf width lo hi r = j
    · have hnotin : ¬ ∃ i ∈ rest, slotOf width lo hi i = j := by
        rintro ⟨i, hi2, hij⟩
        exact hrn ((slotOf_inj width lo hi lo hi i r hw (hij.trans hr.symm)).symm ▸ hi2)
      rw [show cmUpdateRow width lo hi (f, x) r
            = (fun k => if k = slotOf width lo hi r then (f (slotOf width lo hi r) + 1) % 2 ^ 32
                        else f k, min x ((f (slotOf width lo hi r) + 1) % 2 ^ 32)) from rfl]
      rw [ih hnd2]
      rw [if_neg hnotin]
      rw [if_pos (show ∃ i ∈ r :: rest, slotOf width lo hi i = j from
            ⟨r, List.mem_cons_self r rest, hr⟩)]
      rw [if_pos (show j = slotOf width lo hi r from hr.symm), hr]
    · rw [show cmUpdateRow width lo hi (f, x) r
            = (fun k => if k = slotOf width lo hi r then (f (slotOf width lo hi r) + 1) % 2 ^ 32
                        else f k, min x ((f (slotOf width lo hi r) + 1) % 2 ^ 32)) from rfl]
      rw [ih hnd2]
      have hiff : (∃ i ∈ r :: rest, slotOf width lo hi i = j)
          ↔ (∃ i ∈ rest, slotOf width lo hi i = j) := by
        constructor
        · rintro ⟨i, hmem, hij⟩
          rcases List.mem_cons.mp hmem with rfl | hmem2
          · exact absurd hij hr
          · exact ⟨i, hmem2, hij⟩
        · rintro ⟨i, hmem, hij⟩
          exact ⟨i, List.mem_cons_of_mem r hmem, hij⟩
      have hjr : ¬ (j = slotOf width lo hi r) := fun hh => hr hh.symm
      simp only [if_neg hjr, hiff]

theorem cmUpdateHash_counts (c : CountMin) (h : Nat) (hw : 0 < c.width) (j : Nat) :
    (cmUpdateHash c h).1.counts j =
      if ∃ i < c.depth, slotOf c.width (h % 2 ^ 32) (h / 2 ^ 32) i = j
      then (c.counts j + 1) % 2 ^ 32 else c.counts j := by
  rw [show (cmUpdateHash c h).1.counts
        = ((List.range c.depth).foldl
            (cmUpdateRow c.width (h % 2 ^ 32) (h / 2 ^ 32)) (c.counts, 2 ^ 32 - 1)).1 from rfl]
  rw [cmUpdateRows_counts c.width _ _ hw _ (List.nodup_range _) c.counts _ j]
  exact if_congr (by simp only [List.mem_range]) rfl rfl

theorem cmUpdateHash_depth (c : CountMin) (h : Nat) :
    (cmUpdateHash c h).1.depth = c.depth := rfl

theorem cmUpdateHash_width (c : CountMin) (h : Nat) :
    (cmUpdateHash c h).1.width = c.width := rfl

theorem cmUpdateHash_wf (c : CountMin) (h : Nat) (hw : 0 < c.width) (hwf : cmWF c) :
    cmWF (cmUpdateHash c h).1 := by
  intro j
  rw [cmUpdateHash_counts c h hw j]
  split
  · exact Nat.mod_lt _ (by norm_num)
  · exact hwf j

theorem cmUpdateList_depth (c : CountMin) (hs : List Nat) :
    (cmUpdateList c hs).depth = c.depth := by
  induction hs generalizing c with
  | nil => rfl
  | cons h t ih => rw [show cmUpdateList c (h :: t) = cmUpdateList (cmUpdateHash c h).1 t from rfl,
      ih, cmUpdateHash_depth]

theorem cmUpdateList_width (c : CountMin) (hs : List Nat) :
    (cmUpdateList c hs).width = c.width := by
  induction hs generalizing c with
  | nil => rfl
  | cons h t ih => rw [show cmUpdateList c (h :: t) = cmUpdateList (cmUpdateHash c h).1 t from rfl,
      ih, cmUpdateHash_width]

theorem cmUpdateList_counts (c : CountMin) (hs : List Nat) (hw : 0 < c.width)
    (hwf : cmWF c) (j : Nat) :
    (cmUpdateList c hs).counts j =
      (c.counts j + hs.countP
        (fun h => decide (∃ i < c.depth, slotOf c.width (h % 2 ^ 32) (h / 2 ^ 32) i = j)))
        % 2 ^ 32 := by
  induction hs generalizing c with
  | nil =>
    simp only [List.countP_nil, Nat.add_zero]
    exact (Nat.mod_eq_of_lt (hwf j)).symm
  | cons h t ih =>
    rw [show cmUpdateList c (h :: t) = cmUpdateList (cmUpdateHash c h).1 t from rfl]
    have hw2 : 0 < (cmUpdateHash c h).1.width := by rw [cmUpdateHash_width]; exact hw
    rw [ih (cmUpdateHash c h).1 hw2 (cmUpdateHash_wf c h hw hwf)]
    rw [cmUpdateHash_depth, cmUpdateHash_width]
    rw [cmUpdateHash_counts c h hw j]
    rw [List.countP_cons]
    by_cases hp : ∃ i < c.depth, slotOf c.width (h % 2 ^ 32) (h / 2 ^ 32) i = j
    · rw [if_pos hp]
      have hd : (decide (∃ i < c.depth, slotOf c.width (h % 2 ^ 32) (h / 2 ^ 32) i = j)) = true := by
        simpa using hp
      rw [hd]
      simp only [if_true]
      omega
    · rw [if_neg hp]
      have hd : (decide (∃ i < c.depth, slotOf c.width (h % 2 ^ 32) (h / 2 ^ 32) i = j)) = false := by
        simpa using hp
      rw [hd]
      simp only [Bool.false_eq_true, if_false]
      omega

theorem cmCountRows_ge (counts : Nat → Nat) (width lo hi occ : Nat) (rem : Nat) :
    ∀ i x, occ ≤ x → (∀ k, k < i + rem → occ ≤ counts (slotOf width lo hi k)) →
    occ ≤ cmCountRows counts width lo hi i rem x := by
  induction rem with
  | zero => intro i x hx _; exact hx
  | succ rem ih =>
    intro i x hx hrows
    rw [cmCountRows]
    split
    · exact ih (i + 1) _ (le_min hx (hrows i (by omega))) fun k hk => hrows k (by omega)
    · exact hx

theorem countP_ge_count (hs : List Nat) (h : Nat) (p : Nat → Bool) (hp : p h = true) :
    hs.count h ≤ hs.countP p := by
  rw [List.count_eq_countP]
  refine List.countP_mono_left fun x _ hx => ?_
  have hxh : x = h := by simpa using hx
  rw [hxh]
  exact hp

/-- C1 (amended): for every freshly constructed sketch with a positive width,
every sequence of fewer than `2^32` `UpdateHash` calls, and every hash `h`,
`CountHash(h)` is at least the number of calls whose hash equals `h`.  The
bound on the sequence length is needed because the `uint32` row counters wrap
around (see the counterexample); a zero width is excluded because `UpdateHash`
then panics with a division by zero instead of returning. -/
theorem c1_no_undercount_bounded (depth width : Nat) (hw : 0 < width)
    (hs : List Nat) (hlen : hs.length < 2 ^ 32) (h : Nat) :
    hs.count h ≤ cmCountHash (cmUpdateList (mkCountMin depth width) hs) h := by
  set c := cmUpdateList (mkCountMin depth width) hs with hc
  have hdep : c.depth = depth := cmUpdateList_depth _ _
  have hwid : c.width = width := cmUpdateList_width _ _
  have hwf0 : cmWF (mkCountMin depth width) := fun j => by
    simp [mkCountMin]
  -- value of each counter the query reads
  have hcounts : ∀ k, k < depth → hs.count h ≤ c.counts (slotOf width (h % 2 ^ 32) (h / 2 ^ 32) k) := by
    intro k hk
    rw [hc, cmUpdateList_counts (mkCountMin depth width) hs hw hwf0]
    set j := slotOf width (h % 2 ^ 32) (h / 2 ^ 32) k with hj
    have hple : hs.countP
        (fun h2 => decide (∃ i < (mkCountMin depth width).depth,
          slotOf (mkCountMin depth width).width (h2 % 2 ^ 32) (h2 / 2 ^ 32) i = j)) ≤ hs.length :=
      List.countP_le_length _
    have hgece : hs.count h ≤ hs.countP
        (fun h2 => decide (∃ i < (mkCountMin depth width).depth,
          slotOf (mkCountMin depth width).width (h2 % 2 ^ 32) (h2 / 2 ^ 32) i = j)) := by
      apply countP_ge_count
      simp only [decide_eq_true_eq]
      exact ⟨k, hk, rfl⟩
    have : (mkCountMin depth width).counts j = 0 := rfl
    rw [this, Nat.zero_add, Nat.mod_eq_of_lt (by omega)]
    exact hgece
  have hocc : hs.count h ≤ 2 ^ 32 - 1 := le_trans (List.count_le_length _ _) (by omega)
  rw [show cmCountHash c h
        = cmCountRows c.counts c.width (h % 2 ^ 32) (h / 2 ^ 32) 0 c.depth (2 ^ 32 - 1) from rfl]
  rw [hdep, hwid]
  exact cmCountRows_ge c.counts width _ _ _ depth 0 _ hocc fun k hk => hcounts k (by omega)

/-- Witness for C1 (amended) at a concrete input: a 1×1 sketch and two
updates with hash 5. -/
theorem c1_no_undercount_bounded_witness :
    (0 : Nat) < 1 ∧ ([5, 5] : List Nat).length < 2 ^ 32 ∧
    ([5, 5] : List Nat).count 5 ≤ cmCountHash (cmUpdateList (mkCountMin 1 1) [5, 5]) 5 :=
  ⟨by decide, by norm_num, c1_no_undercount_bounded 1 1 (by decide) [5, 5] (by norm_num) 5⟩

/-- C1 counterexample: the claim as stated fails for the sequence of `2^32`
updates all with hash 0 on a freshly constructed 1×1 sketch: every `uint32`
counter wraps around to 0, so `CountHash(0)` returns 0 while the true
frequency of hash 0 is `2^32`. -/
theorem c1_counterexample :
    newCountMinWithSize 1 1 = .ok (mkCountMin 1 1) ∧
    ¬ ((List.replicate (2 ^ 32) 0).count 0 ≤
        cmCountHash (cmUpdateList (mkCountMin 1 1) (List.replicate (2 ^ 32) 0)) 0) := by
  constructor
  · rfl
  · set c := cmUpdateList (mkCountMin 1 1) (List.replicate (2 ^ 32) 0) with hc
    have hwf0 : cmWF (mkCountMin 1 1) := fun j => by simp [mkCountMin]
    have hcount0 : c.counts 0 = 0 := by
      rw [hc, cmUpdateList_counts (mkCountMin 1 1) _ (by decide) hwf0 0]
      rw [List.countP_replicate]
      have hdec : (decide (∃ i < (mkCountMin 1 1).depth,
          slotOf (mkCountMin 1 1).width (0 % 2 ^ 32) (0 / 2 ^ 32) i = 0)) = true := by
        simp only [decide_eq_true_eq]
        exact ⟨0, by decide, rfl⟩
      rw [hdec]
      simp [mkCountMin]
    have hdep : c.depth = 1 := cmUpdateList_depth _ _
    have hwid : c.width = 1 := cmUpdateList_width _ _
    have hch : cmCountHash c 0 = 0 := by
      rw [show cmCountHash c 0
            = cmCountRows c.counts c.width (0 % 2 ^ 32) (0 / 2 ^ 32) 0 c.depth (2 ^ 32 - 1) from rfl]
      rw [hdep, hwid]
      rw [cmCountRows]
      rw [if_pos (by norm_num)]
      rw [show slotOf 1 (0 % 2 ^ 32) (0 / 2 ^ 32) 0 = 0 from rfl]
      rw [hcount0]
      rw [show min (2 ^ 32 - 1) 0 = 0 from rfl]
      rfl
    rw [hch, List.count_replicate_self]
    norm_num

/-- C4 counterexample: with `ε = 0.001` and `confidence = 0.99` the
derivation `width = ⌈e/ε⌉`, `depth = ⌈ln(1/(1-confidence))⌉` yields
`depth = ⌈ln 100⌉ = 5` and `width = ⌈2718.28...⌉ = 2719`, not the claimed
`depth = 4`, `width = 2048`. -/
theorem lnCeil_of_default_confidence : lnCeil (1 / (1 - (99 / 100 : ℚ))) = 5 := by
  have h : (1 : ℚ) / (1 - 99 / 100) = 100 := by norm_num
  rw [h, lnCeil]
  rw [lnCeilGo, if_neg (by rw [apprE]; norm_num)]
  rw [lnCeilGo, if_neg (by rw [apprE]; norm_num)]
  rw [lnCeilGo, if_neg (by rw [apprE]; norm_num)]
  rw [lnCeilGo, if_neg (by rw [apprE]; norm_num)]
  rw [lnCeilGo, if_neg (by rw [apprE]; norm_num)]
  rw [lnCeilGo, if_pos (by rw [apprE]; norm_num)]

theorem widthCeil_of_default_epsilon : (⌈eF64 / (1 / 1000 : ℚ)⌉).toNat = 2719 := by
  have h : eF64 / (1 / 1000 : ℚ) = 6121026514868073000 / 2251799813685248 := by
    rw [eF64]; norm_num
  rw [h]
  have h2 : ⌈(6121026514868073000 : ℚ) / 2251799813685248⌉ = 2719 := by
    rw [Int.ceil_eq_iff]
    constructor <;> norm_num
  rw [h2]
  rfl

theorem newCountMinWithEstimates_default :
    newCountMinWithEstimates (1 / 1000) (99 / 100) = newCountMinWithSize 5 2719 := by
  rw [newCountMinWithEstimates]
  rw [if_neg (by norm_num), if_neg (by norm_num)]
  rw [lnCeil_of_default_confidence, widthCeil_of_default_epsilon]

theorem c4_counterexample :
    (newCountMinWithEstimates (1 / 1000) (99 / 100)).map (fun c => (c.depth, c.width))
      = .ok (5, 2719) ∧
    ((5, 2719) : Nat × Nat) ≠ (4, 2048) := by
  refine ⟨?_, by decide⟩
  rw [newCountMinWithEstimates_default]
  rfl

/-- C4 (amended): constructing from `ε = 0.001`, `confidence = 0.99`
succeeds and produces `depth = ⌈ln(1/(1-0.99))⌉ = 5`,
`width = ⌈e/0.001⌉ = 2719`; these equal the default construction's
dimensions because `NewCountMin` delegates to exactly these parameters. -/
theorem c4_derived_dimensions :
    (newCountMinWithEstimates (1 / 1000) (99 / 100)).map (fun c => (c.depth, c.width))
      = .ok (5, 2719) ∧
    newCountMin = newCountMinWithEstimates (1 / 1000) (99 / 100) := by
  refine ⟨?_, rfl⟩
  rw [newCountMinWithEstimates_default]
  rfl

/-- C5: constructing a sketch with `ε = 0`, or `confidence = 1`, or
`depth = 129`, or `width = 2^31` fails with a configuration error and
produces no sketch value. -/
theorem c5_construction_validation :
    newCountMinWithEstimates 0 (99 / 100)
      = .error "sketch: value of epsilon should be in range of (0, 1)" ∧
    newCountMinWithEstimates (1 / 1000) 1
      = .error "sketch: value of delta should be in range of (0, 1)" ∧
    newCountMinWithSize 129 2048
      = .error "sketch: depth should be less than 128" ∧
    newCountMinWithSize 4 (2 ^ 31)
      = .error "sketch: width should be less than MaxInt32" := by
  refine ⟨?_, ?_, rfl, rfl⟩
  · rw [newCountMinWithEstimates]
    rw [if_pos (by norm_num)]
  · rw [newCountMinWithEstimates]
    rw [if_neg (by norm_num), if_pos (by norm_num)]

/-- 16-bit field of a packed `Count16x4` word at slot `j` (the source reads it
as `uint16(v >> (16*j))`, i.e. `(v >>> (j*16)) % 2^16`). -/
def extract16 (w j : Nat) : Nat := (w >>> (j * 16)) % 2 ^ 16

/-- Model of `Count16x4.incrementAt` from `count.go` (the revision taking an
explicit roll): extract the 16-bit sub-counter of `slot`, return its estimate
unchanged when the roll is not below `d16[counter]`, otherwise increment the
sub-counter (a `uint16`, wrapping mod `2^16`) and re-pack it with
`(uint64(counter) << shft) | (loaded & ^(0xFFFF << shft))`.  The CAS loop
always succeeds in this sequential model.  Result:
`(new packed word, returned estimate)`. -/
def c16x4IncAt (w slot : Nat) (roll : ℚ) : Nat × Nat :=
  if roll < d16 ((w >>> (slot * 16)) % 2 ^ 16) then
    (((((w >>> (slot * 16)) % 2 ^ 16 + 1) % 2 ^ 16) <<< (slot * 16))
       ||| (w &&& ((2 ^ 64 - 1) ^^^ (65535 <<< (slot * 16)))),
     n16tab (((w >>> (slot * 16)) % 2 ^ 16 + 1) % 2 ^ 16))
  else (w, n16tab ((w >>> (slot * 16)) % 2 ^ 16))

/-- Model of `Count16x4.IncrementAt` from `count.go`: the Go `int` index is
an integer; out-of-range indices return 0 without touching the word. -/
def c16x4IncrementAt (w : Nat) (i : ℤ) (roll : ℚ) : Nat × Nat :=
  if i < 0 ∨ 3 < i then (w, 0) else c16x4IncAt w i.toNat roll

/-- Model of `Count16x4.EstimateAt` from `count.go`: out-of-range indices
return 0; in range, the estimate of the 16-bit field at the slot (the slot
entry of `Estimate()`'s 4-vector `estimate16x4`). -/
def c16x4EstimateAt (w : Nat) (i : ℤ) : Nat :=
  if i < 0 ∨ 3 < i then 0 else n16tab (extract16 w i.toNat)

theorem packed_update_testBit (w c2 i t : Nat) (hc2 : c2 < 2 ^ 16) (ht : t < 64)
    (hout : t < i * 16 ∨ i * 16 + 16 ≤ t) :
    ((c2 <<< (i * 16)) ||| (w &&& ((2 ^ 64 - 1) ^^^ (65535 <<< (i * 16))))).testBit t
      = w.testBit t := by
  have h65535 : (65535 : Nat) = 2 ^ 16 - 1 := by norm_num
  simp only [Nat.testBit_or, Nat.testBit_and, Nat.testBit_xor, Nat.testBit_shiftLeft,
    h65535, Nat.testBit_two_pow_sub_one]
  rcases hout with hlt | hge
  · have h1 : ¬(t ≥ i * 16) := by omega
    simp [h1, ht]
  · have h1 : t ≥ i * 16 := by omega
    have h2 : 16 ≤ t - i * 16 := by omega
    have hc2bit : c2.testBit (t - i * 16) = false :=
      Nat.testBit_lt_two_pow (lt_of_lt_of_le hc2 (Nat.pow_le_pow_right (by norm_num) h2))
    have hmaskbit : ¬(t - i * 16 < 16) := by omega
    simp [h1, ht, hc2bit, hmaskbit]

theorem extract16_testBit (x j k : Nat) :
    (extract16 x j).testBit k = (decide (k < 16) && x.testBit (j * 16 + k)) := by
  unfold extract16
  rw [Nat.testBit_mod_two_pow, Nat.testBit_shiftRight]

/-- C7: for every packed `Count16x4` word, slot `i ∈ {0,1,2,3}` and roll,
`incrementAt` leaves the three 16-bit sub-counters at slots `j ≠ i`
bit-for-bit unchanged. -/
theorem c7_incrementAt_frame (w i : Nat) (roll : ℚ) (j : Nat)
    (hi : i < 4) (hj : j < 4) (hij : j ≠ i) :
    extract16 ((c16x4IncAt w i roll).1) j = extract16 w j := by
  unfold c16x4IncAt
  split
  · dsimp only
    apply Nat.eq_of_testBit_eq
    intro k
    rw [extract16_testBit, extract16_testBit]
    by_cases hk : k < 16
    · have ht : j * 16 + k < 64 := by omega
      have hout : j * 16 + k < i * 16 ∨ i * 16 + 16 ≤ j * 16 + k := by
        rcases Nat.lt_or_ge j i with h | h
        · left; omega
        · right
          have : i < j := by omega
          omega
      rw [packed_update_testBit w ((w >>> (i * 16) % 2 ^ 16 + 1) % 2 ^ 16) i (j * 16 + k)
            (Nat.mod_lt _ (by norm_num)) ht hout]
    · simp [hk]
  · rfl

/-- Witness for C7 at a concrete input: word `0x0003000200010000`-like value
`81985529216486895`, incrementing slot 0 with roll `1/2`, checking slot 1. -/
theorem c7_incrementAt_frame_witness :
    (0 : Nat) < 4 ∧ (1 : Nat) < 4 ∧ (1 : Nat) ≠ 0 ∧
    extract16 ((c16x4IncAt 81985529216486895 0 (1 / 2)).1) 1
      = extract16 81985529216486895 1 :=
  ⟨by decide, by decide, by decide,
   c7_incrementAt_frame 81985529216486895 0 (1 / 2) 1 (by decide) (by decide) (by decide)⟩

/-- C8: for every slot index outside `{0,1,2,3}` (negative or `> 3`) and
every packed word, `IncrementAt` returns 0 and leaves the word unchanged, and
`EstimateAt` returns 0: the out-of-range call is a silent no-op, not an
error. -/
theorem c8_out_of_range_noop (w : Nat) (i : ℤ) (roll : ℚ) (h : i < 0 ∨ 3 < i) :
    c16x4IncrementAt w i roll = (w, 0) ∧ c16x4EstimateAt w i = 0 := by
  unfold c16x4IncrementAt c16x4EstimateAt
  rw [if_pos h, if_pos h]
  exact ⟨rfl, rfl⟩

/-- Witness for C8 at the concrete out-of-range indices 4 and -1. -/
theorem c8_out_of_range_noop_witness :
    (((4 : ℤ) < 0 ∨ 3 < (4 : ℤ)) ∧
      (c16x4IncrementAt 7 4 0 = (7, 0) ∧ c16x4EstimateAt 7 4 = 0)) ∧
    (((-1 : ℤ) < 0 ∨ 3 < (-1 : ℤ)) ∧
      (c16x4IncrementAt 7 (-1) 0 = (7, 0) ∧ c16x4EstimateAt 7 (-1) = 0)) :=
  ⟨⟨by decide, c8_out_of_range_noop 7 4 0 (by decide)⟩,
   ⟨by decide, c8_out_of_range_noop 7 (-1) 0 (by decide)⟩⟩

/-- State of the packed-counter `CountMin` revision: a `depth × (width/4)`
matrix of packed `Count16x4` words (row index, group index). -/
structure CountMinPacked where
  depth : Nat
  width : Nat
  counts : Nat → Nat → Nat

/-- One row step of the packed `UpdateHash`: row `i` increments the slot
`idx % 4` of the group `idx / 4` at index `idx = (lo + i*hi) % width`, using
the roll `r` passed in (not a fresh one), and ors the per-row
"counter changed" outcome into the running flag. -/
def pcmRowStep (width lo hi : Nat) (r : ℚ) (st : (Nat → Nat → Nat) × Bool) (i : Nat) :
    (Nat → Nat → Nat) × Bool :=
  let idx := (lo + i * hi) % width
  let w0 := st.1 i (idx / 4)
  let w1 := (c16x4IncAt w0 (idx % 4) r).1
  (fun a b => if a = i ∧ b = idx / 4 then w1 else st.1 a b,
   st.2 || decide (w1 ≠ w0))

/-- Model of the packed `CountMin.UpdateHash`: the random source is a stream
of rolls, of which the function draws the head once
(`r := roll32() // Keep same random value for all counters`) and then
iterates the rows `0..depth-1` with that single roll.  Returns the new state,
the `updated` flag, and the remaining roll stream. -/
def pcmUpdateHash (s : CountMinPacked) (hash : Nat) (rng : List ℚ) :
    (CountMinPacked × Bool) × List ℚ :=
  let lo := hash % 2 ^ 32
  let hi := hash / 2 ^ 32
  let z := (List.range s.depth).foldl (pcmRowStep s.width lo hi (rng.headD 0)) (s.counts, false)
  (({ s with counts := z.1 }, z.2), rng.tail)

/-- Reference per-row iteration with one fixed roll `r`: processes rows
`i, i+1, ...` (with explicit fuel) applying `pcmRowStep` with the same roll
at every row. -/
def pcmRowsFixed (width lo hi : Nat) (r : ℚ) (st : (Nat → Nat → Nat) × Bool) :
    Nat → Nat → (Nat → Nat → Nat) × Bool
  | _, 0 => st
  | i, fuel + 1 => pcmRowsFixed width lo hi r (pcmRowStep width lo hi r st i) (i + 1) fuel

/-- Update of the packed sketch where every row's probabilistic decision uses
the single roll `r`. -/
def pcmUpdateRowsOneRoll (s : CountMinPacked) (hash : Nat) (r : ℚ) : CountMinPacked × Bool :=
  let z := pcmRowsFixed s.width (hash % 2 ^ 32) (hash / 2 ^ 32) r (s.counts, false) 0 s.depth
  ({ s with counts := z.1 }, z.2)

theorem pcmRowsFixed_eq_foldl (width lo hi : Nat) (r : ℚ) :
    ∀ (fuel i : Nat) (st : (Nat → Nat → Nat) × Bool),
    pcmRowsFixed width lo hi r st i fuel
      = (List.range' i fuel).foldl (pcmRowStep width lo hi r) st := by
  intro fuel
  induction fuel with
  | zero => intro i st; rfl
  | succ fuel ih =>
    intro i st
    rw [pcmRowsFixed, List.range'_succ, List.foldl_cons, ih]

/-- C6: each `UpdateHash` call of the packed sketch draws exactly one roll
from the random stream (the tail is returned untouched), its result does not
depend on the rest of the stream, and the resulting state and flag equal the
per-row iteration that reuses that single roll at every row `i < depth`
(incrementing slot `idx_i % 4` of group `idx_i / 4`, `idx_i = (lo + i*hi) mod
width`): no row draws a fresh roll of its own. -/
theorem c6_one_shared_roll (s : CountMinPacked) (hash : Nat) (r : ℚ)
    (rest rest2 : List ℚ) :
    (pcmUpdateHash s hash (r :: rest)).2 = rest ∧
    (pcmUpdateHash s hash (r :: rest)).1 = (pcmUpdateHash s hash (r :: rest2)).1 ∧
    (pcmUpdateHash s hash (r :: rest)).1 = pcmUpdateRowsOneRoll s hash r := by
  refine ⟨rfl, rfl, ?_⟩
  unfold pcmUpdateHash pcmUpdateRowsOneRoll
  rw [pcmRowsFixed_eq_foldl]
  rw [show List.range' 0 s.depth = List.range s.depth from (List.range_eq_range' _).symm]
  rfl

/-- Model of `TopValue` from `topk.go`: a tracked value with its hash and
estimated count (`Count` is a `uint32`; the heap only compares counts, so the
value range plays no role here). -/
structure TopValue where
  hash : Nat
  Value : String
  Count : Nat
deriving DecidableEq

instance : Inhabited TopValue := ⟨⟨0, "", 0⟩⟩

/-- Count stored at index `i` of a heap slice (out-of-range reads return the
default element; all verified accesses are in range). -/
def cnt (h : List TopValue) (i : Nat) : Nat := (h.getD i default).Count

/-- Model of `minheap.Swap` (`h[i], h[j] = h[j], h[i]`). -/
def listSwap (h : List TopValue) (i j : Nat) : List TopValue :=
  (h.set i (h.getD j default)).set j (h.getD i default)

/-- Model of `minheap.up` from `minheap.go`: repeatedly swap index `j` with
its parent `(j-1)/2` while the parent is strictly larger. -/
def heapUp (h : List TopValue) (j : Nat) : List TopValue :=
  if hstop : (j - 1) / 2 = j ∨ ¬(cnt h j < cnt h ((j - 1) / 2)) then h
  else heapUp (listSwap h ((j - 1) / 2) j) ((j - 1) / 2)
termination_by j
decreasing_by
  push_neg at hstop
  omega

/-- Child of `i` selected by `minheap.down`: the left child `2i+1`, or the
right child `2i+2` when it is in range and strictly smaller. -/
def minChild (h : List TopValue) (i n : Nat) : Nat :=
  if 2 * i + 2 < n ∧ cnt h (2 * i + 2) < cnt h (2 * i + 1) then 2 * i + 2 else 2 * i + 1

/-- Loop of `minheap.down` from `minheap.go`: starting at `i` with bound `n`,
move the element at `i` down, always swapping with the smaller child; returns
the final state and the final index. -/
def heapDownAux (h : List TopValue) (i n : Nat) : List TopValue × Nat :=
  if n ≤ 2 * i + 1 then (h, i)
  else if cnt h i < cnt h (minChild h i n) then (h, i)
  else heapDownAux (listSwap h i (minChild h i n)) (minChild h i n) n
termination_by n - i
decreasing_by
  rename_i hstop
  unfold minChild
  split <;> omega

/-- Model of `minheap.down`: the boolean result is `i > at`, i.e. whether the
element moved. -/
def heapDown (h : List TopValue) (a n : Nat) : List TopValue × Bool :=
  ((heapDownAux h a n).1, decide (a < (heapDownAux h a n).2))

/-- Model of `minheap.Push`: append, then sift the last element up. -/
def heapPush (h : List TopValue) (x : TopValue) : List TopValue :=
  heapUp (h ++ [x]) ((h ++ [x]).length - 1)

/-- Model of `minheap.Pop`: swap the root with the last element, sift the new
root down within the first `n = len-1` positions, then split off the last
element.  Returns `(remaining heap, popped element)`. -/
def heapPop (h : List TopValue) : List TopValue × TopValue :=
  ((heapDownAux (listSwap h 0 (h.length - 1)) 0 (h.length - 1)).1.take (h.length - 1),
   (heapDownAux (listSwap h 0 (h.length - 1)) 0 (h.length - 1)).1.getD (h.length - 1) default)

/-- Model of `minheap.Update`: overwrite the count at index `i`, then restore
heap order (`if !h.down(i, len) { h.up(i) }`). -/
def heapUpdate (h : List TopValue) (i count : Nat) : List TopValue :=
  let h1 := h.set i { h.getD i default with Count := count }
  let z := heapDown h1 i h1.length
  if z.2 then z.1 else heapUp z.1 i

/-- Binary min-heap ordering on the first `n` entries: every non-root node is
at least its parent. -/
def IsMinHeapN (h : List TopValue) (n : Nat) : Prop :=
  ∀ j < n, 0 < j → cnt h ((j - 1) / 2) ≤ cnt h j

/-- Binary min-heap ordering of the whole slice (the `minheap` invariant). -/
def IsMinHeap (h : List TopValue) : Prop := IsMinHeapN h h.length

instance (h : List TopValue) (n : Nat) : Decidable (IsMinHeapN h n) := by
  unfold IsMinHeapN
  infer_instance

instance (h : List TopValue) : Decidable (IsMinHeap h) := by
  unfold IsMinHeap
  infer_instance

theorem getD_set_self (l : List TopValue) (i : Nat) (x d : TopValue) (hi : i < l.length) :
    (l.set i x).getD i d = x := by
  rw [List.getD_eq_getElem?_getD, List.getElem?_set_self hi]
  rfl

theorem getD_set_ne (l : List TopValue) {i k : Nat} (x d : TopValue) (h : i ≠ k) :
    (l.set i x).getD k d = l.getD k d := by
  rw [List.getD_eq_getElem?_getD, List.getElem?_set_ne h, ← List.getD_eq_getElem?_getD]

theorem listSwap_length (h : List TopValue) (i j : Nat) :
    (listSwap h i j).length = h.length := by
  simp [listSwap]

theorem getD_listSwap_snd (h : List TopValue) {i j : Nat} (hi : i < h.length)
    (hj : j < h.length) :
    (listSwap h i j).getD j default = h.getD i default := by
  unfold listSwap
  rw [getD_set_self _ _ _ _ (by simpa using hj)]

theorem getD_listSwap_fst (h : List TopValue) {i j : Nat} (hi : i < h.length)
    (hj : j < h.length) :
    (listSwap h i j).getD i default = h.getD j default := by
  unfold listSwap
  by_cases hij : i = j
  · subst hij
    rw [getD_set_self _ _ _ _ (by simpa using hi)]
  · rw [getD_set_ne _ _ _ (fun hh => hij hh.symm), getD_set_self _ _ _ _ hi]

theorem getD_listSwap_other (h : List TopValue) {i j k : Nat} (hki : k ≠ i) (hkj : k ≠ j) :
    (listSwap h i j).getD k default = h.getD k default := by
  unfold listSwap
  rw [getD_set_ne _ _ _ (fun hh => hkj hh.symm), getD_set_ne _ _ _ (fun hh => hki hh.symm)]

theorem cnt_listSwap_fst (h : List TopValue) {i j : Nat} (hi : i < h.length)
    (hj : j < h.length) : cnt (listSwap h i j) i = cnt h j := by
  unfold cnt
  rw [getD_listSwap_fst h hi hj]

theorem cnt_listSwap_snd (h : List TopValue) {i j : Nat} (hi : i < h.length)
    (hj : j < h.length) : cnt (listSwap h i j) j = cnt h i := by
  unfold cnt
  rw [getD_listSwap_snd h hi hj]

theorem cnt_listSwap_other (h : List TopValue) {i j k : Nat} (hki : k ≠ i) (hkj : k ≠ j) :
    cnt (listSwap h i j) k = cnt h k := by
  unfold cnt
  rw [getD_listSwap_other h hki hkj]

theorem cons_getD_set_perm : ∀ (t : List TopValue) (m : Nat) (x : TopValue), m < t.length →
    List.Perm (t.getD m default :: t.set m x) (x :: t) := by
  intro t
  induction t with
  | nil => intro m x hm; simp at hm
  | cons y s ih =>
    intro m x hm
    match m with
    | 0 => exact List.Perm.swap x y s
    | m + 1 =>
      have h1 : List.Perm (s.getD m default :: y :: s.set m x)
          (y :: (s.getD m default :: s.set m x)) := List.Perm.swap y _ _
      have h2 : List.Perm (y :: (s.getD m default :: s.set m x)) (y :: (x :: s)) :=
        List.Perm.cons y (ih m x (by simpa using hm))
      have h3 : List.Perm (y :: x :: s) (x :: y :: s) := List.Perm.swap x y s
      simpa using (h1.trans h2).trans h3

theorem listSwap_perm : ∀ (l : List TopValue) (i j : Nat), i < l.length → j < l.length →
    List.Perm (listSwap l i j) l := by
  intro l
  induction l with
  | nil => intro i j hi _; simp at hi
  | cons y t ih =>
    intro i j hi hj
    match i, j with
    | 0, 0 =>
      simp [listSwap]
    | 0, m + 1 =>
      have hm : m < t.length := by simpa using hj
      have heq : listSwap (y :: t) 0 (m + 1) = t.getD m default :: t.set m y := by
        simp [listSwap]
      rw [heq]
      exact cons_getD_set_perm t m y hm
    | a + 1, 0 =>
      have ha : a < t.length := by simpa using hi
      have heq : listSwap (y :: t) (a + 1) 0 = t.getD a default :: t.set a y := by
        simp [listSwap]
      rw [heq]
      exact cons_getD_set_perm t a y ha
    | a + 1, b + 1 =>
      have heq : listSwap (y :: t) (a + 1) (b + 1) = y :: listSwap t a b := by
        simp [listSwap]
      rw [heq]
      exact List.Perm.cons y (ih a b (by simpa using hi) (by simpa using hj))

theorem minChild_gt (h : List TopValue) (i n : Nat) : i < minChild h i n := by
  unfold minChild
  split <;> omega

theorem minChild_lt (h : List TopValue) (i n : Nat) (hn : ¬ n ≤ 2 * i + 1) :
    minChild h i n < n := by
  unfold minChild
  split <;> omega

theorem minChild_parent (h : List TopValue) (i n : Nat) : (minChild h i n - 1) / 2 = i := by
  unfold minChild
  split <;> omega

theorem minChild_min (h : List TopValue) (i n : Nat) (hn : ¬ n ≤ 2 * i + 1) :
    ∀ k, (k - 1) / 2 = i → k < n → 0 < k → cnt h (minChild h i n) ≤ cnt h k := by
  intro k hpk hkn hk0
  have hk : k = 2 * i + 1 ∨ k = 2 * i + 2 := by omega
  unfold minChild
  split
  · rename_i hsel
    rcases hk with rfl | rfl
    · exact le_of_lt hsel.2
    · exact le_refl _
  · rename_i hsel
    rcases hk with rfl | rfl
    · exact le_refl _
    · have := fun hlt => hsel ⟨hkn, hlt⟩
      omega

theorem heapUp_perm : ∀ (j : Nat) (h : List TopValue), j < h.length →
    List.Perm (heapUp h j) h := by
  intro j
  induction j using Nat.strong_induction_on with
  | _ j ih =>
    intro h hj
    rw [heapUp]
    split
    · exact List.Perm.refl h
    · rename_i hstop
      push_neg at hstop
      have hij : (j - 1) / 2 < j := by omega
      have hi : (j - 1) / 2 < h.length := lt_trans hij hj
      exact (ih ((j - 1) / 2) hij (listSwap h ((j - 1) / 2) j)
        (by rw [listSwap_length]; exact hi)).trans (listSwap_perm h _ _ hi hj)

theorem heapUp_length (j : Nat) (h : List TopValue) (hj : j < h.length) :
    (heapUp h j).length = h.length :=
  (heapUp_perm j h hj).length_eq

theorem heapDownAux_perm (n : Nat) : ∀ (fuel i : Nat) (h : List TopValue), n - i ≤ fuel →
    n ≤ h.length → List.Perm (heapDownAux h i n).1 h := by
  intro fuel
  induction fuel with
  | zero =>
    intro i h hfi hn
    rw [heapDownAux, if_pos (by omega)]
  | succ fuel ih =>
    intro i h hfi hn
    rw [heapDownAux]
    split
    · exact List.Perm.refl h
    · split
      · exact List.Perm.refl h
      · rename_i hstop _
        have hjn : minChild h i n < n := minChild_lt h i n hstop
        have hji : i < minChild h i n := minChild_gt h i n
        have hswap := listSwap_perm h i (minChild h i n)
          (by omega) (by omega)
        exact (ih (minChild h i n) (listSwap h i (minChild h i n))
          (by omega) (by rw [listSwap_length]; exact hn)).trans hswap

theorem heapDownAux_le (n : Nat) : ∀ (fuel i : Nat) (h : List TopValue), n - i ≤ fuel →
    i ≤ (heapDownAux h i n).2 := by
  intro fuel
  induction fuel with
  | zero =>
    intro i h hfi
    rw [heapDownAux, if_pos (by omega)]
  | succ fuel ih =>
    intro i h hfi
    rw [heapDownAux]
    split
    · exact le_refl i
    · split
      · exact le_refl i
      · rename_i hstop _
        have hjn : minChild h i n < n := minChild_lt h i n hstop
        have hji : i < minChild h i n := minChild_gt h i n
        exact le_trans (le_of_lt hji)
          (ih (minChild h i n) (listSwap h i (minChild h i n)) (by omega))

theorem heapDownAux_untouched (n : Nat) : ∀ (fuel i : Nat) (h : List TopValue) (m : Nat),
    n - i ≤ fuel → n ≤ h.length → n ≤ m →
    (heapDownAux h i n).1.getD m default = h.getD m default := by
  intro fuel
  induction fuel with
  | zero =>
    intro i h m hfi hn hm
    rw [heapDownAux, if_pos (by omega)]
  | succ fuel ih =>
    intro i h m hfi hn hm
    rw [heapDownAux]
    split
    · rfl
    · split
      · rfl
      · rename_i hstop _
        have hjn : minChild h i n < n := minChild_lt h i n hstop
        have hji : i < minChild h i n := minChild_gt h i n
        rw [ih (minChild h i n) (listSwap h i (minChild h i n)) m (by omega)
              (by rw [listSwap_length]; exact hn) hm]
        exact getD_listSwap_other h (by omega) (by omega)

theorem heapUp_spec : ∀ (j : Nat) (h : List TopValue), j < h.length →
    (∀ k, k < h.length → 0 < k → k ≠ j → cnt h ((k - 1) / 2) ≤ cnt h k) →
    (∀ k, k < h.length → 0 < k → (k - 1) / 2 = j → cnt h ((j - 1) / 2) ≤ cnt h k) →
    IsMinHeap (heapUp h j) := by
  intro j
  induction j using Nat.strong_induction_on with
  | _ j ih =>
    intro h hj hA hB
    rw [heapUp]
    split
    · rename_i hstop
      unfold IsMinHeap IsMinHeapN
      intro k hklen hk0
      by_cases hkj : k = j
      · subst hkj
        rcases hstop with hj0 | hge
        · rw [hj0]
        · exact not_lt.mp hge
      · exact hA k hklen hk0 hkj
    · rename_i hstop
      push_neg at hstop
      obtain ⟨hne, hlt⟩ := hstop
      have hij : (j - 1) / 2 < j := by omega
      have hj0 : 0 < j := by omega
      have hi : (j - 1) / 2 < h.length := lt_trans hij hj
      have hlen : (listSwap h ((j - 1) / 2) j).length = h.length := listSwap_length h _ j
      have hci : cnt (listSwap h ((j - 1) / 2) j) ((j - 1) / 2) = cnt h j :=
        cnt_listSwap_fst h hi hj
      have hcj : cnt (listSwap h ((j - 1) / 2) j) j = cnt h ((j - 1) / 2) :=
        cnt_listSwap_snd h hi hj
      have hco : ∀ k, k ≠ (j - 1) / 2 → k ≠ j →
          cnt (listSwap h ((j - 1) / 2) j) k = cnt h k :=
        fun k h1 h2 => cnt_listSwap_other h h1 h2
      apply ih ((j - 1) / 2) hij (listSwap h ((j - 1) / 2) j) (by rw [hlen]; exact hi)
      · -- edges except at the new position
        intro k hklen hk0 hki
        rw [hlen] at hklen
        by_cases hkj : k = j
        · rw [hkj, hci, hcj]
          exact le_of_lt hlt
        · by_cases hpkj : (k - 1) / 2 = j
          · rw [hpkj, hcj, hco k hki hkj]
            exact hB k hklen hk0 hpkj
          · by_cases hpki : (k - 1) / 2 = (j - 1) / 2
            · rw [hpki, hci, hco k hki hkj]
              refine le_trans (le_of_lt hlt) ?_
              have := hA k hklen hk0 hkj
              rw [hpki] at this
              exact this
            · rw [hco _ hpki hpkj, hco k hki hkj]
              exact hA k hklen hk0 hkj
      · -- children of the new position dominate its parent
        intro k hklen hk0 hpk
        rw [hlen] at hklen
        by_cases hi0 : (j - 1) / 2 = 0
        · rw [show ((j - 1) / 2 - 1) / 2 = (j - 1) / 2 from by omega, hci]
          by_cases hkj : k = j
          · rw [hkj, hcj]
            exact le_of_lt hlt
          · rw [hco k (by omega) hkj]
            refine le_trans (le_of_lt hlt) ?_
            have := hA k hklen hk0 hkj
            rw [hpk, hi0] at this
            rw [hi0]
            exact this
        · have hpi : ((j - 1) / 2 - 1) / 2 ≠ (j - 1) / 2 := by omega
          have hpj : ((j - 1) / 2 - 1) / 2 ≠ j := by omega
          rw [hco _ hpi hpj]
          by_cases hkj : k = j
          · rw [hkj, hcj]
            exact hA ((j - 1) / 2) hi (by omega) hne
          · have hki2 : k ≠ (j - 1) / 2 := by omega
            rw [hco k hki2 hkj]
            refine le_trans (hA ((j - 1) / 2) hi (by omega) hne) ?_
            have := hA k hklen hk0 hkj
            rw [hpk] at this
            exact this

theorem heapDownAux_spec (n : Nat) : ∀ (fuel i a : Nat) (h : List TopValue),
    n - i ≤ fuel → n ≤ h.length → a ≤ i →
    (∀ k, k < n → 0 < k → k ≠ i → (k - 1) / 2 ≠ i → cnt h ((k - 1) / 2) ≤ cnt h k) →
    (∀ k, k < n → 0 < k → (k - 1) / 2 = i → 0 < i → cnt h ((i - 1) / 2) ≤ cnt h k) →
    (a < i → 0 < i ∧ cnt h ((i - 1) / 2) ≤ cnt h i) →
    (∀ k, k < n → 0 < k → k ≠ (heapDownAux h i n).2 →
        cnt (heapDownAux h i n).1 ((k - 1) / 2) ≤ cnt (heapDownAux h i n).1 k) ∧
    (a < (heapDownAux h i n).2 →
        cnt (heapDownAux h i n).1 (((heapDownAux h i n).2 - 1) / 2)
          ≤ cnt (heapDownAux h i n).1 (heapDownAux h i n).2) ∧
    ((heapDownAux h i n).2 = i → (heapDownAux h i n).1 = h) := by
  intro fuel
  induction fuel with
  | zero =>
    intro i a h hfi hn ha hA hB hC
    rw [heapDownAux, if_pos (by omega)]
    refine ⟨?_, ?_, fun _ => rfl⟩
    · intro k hkn hk0 hki
      by_cases hpki : (k - 1) / 2 = i
      · omega
      · exact hA k hkn hk0 hki hpki
    · intro hai
      exact (hC hai).2
  | succ fuel ih =>
    intro i a h hfi hn ha hA hB hC
    rw [heapDownAux]
    split
    · rename_i hstop
      refine ⟨?_, ?_, fun _ => rfl⟩
      · intro k hkn hk0 hki
        by_cases hpki : (k - 1) / 2 = i
        · omega
        · exact hA k hkn hk0 hki hpki
      · intro hai
        exact (hC hai).2
    · rename_i hstop
      split
      · rename_i hlt
        refine ⟨?_, ?_, fun _ => rfl⟩
        · intro k hkn hk0 hki
          by_cases hpki : (k - 1) / 2 = i
          · rw [hpki]
            exact le_trans (le_of_lt hlt) (minChild_min h i n hstop k hpki hkn hk0)
          · exact hA k hkn hk0 hki hpki
        · intro hai
          exact (hC hai).2
      · rename_i hge
        have hge2 : cnt h (minChild h i n) ≤ cnt h i := not_lt.mp hge
        have hji : i < minChild h i n := minChild_gt h i n
        have hjn : minChild h i n < n := minChild_lt h i n hstop
        have hpj : (minChild h i n - 1) / 2 = i := minChild_parent h i n
        have hil : i < h.length := by omega
        have hjl : minChild h i n < h.length := by omega
        have hlen : (listSwap h i (minChild h i n)).length = h.length :=
          listSwap_length h _ _
        have hci : cnt (listSwap h i (minChild h i n)) i = cnt h (minChild h i n) :=
          cnt_listSwap_fst h hil hjl
        have hcj : cnt (listSwap h i (minChild h i n)) (minChild h i n) = cnt h i :=
          cnt_listSwap_snd h hil hjl
        have hco : ∀ k, k ≠ i → k ≠ minChild h i n →
            cnt (listSwap h i (minChild h i n)) k = cnt h k :=
          fun k h1 h2 => cnt_listSwap_other h h1 h2
        have hA2 : ∀ k, k < n → 0 < k → k ≠ minChild h i n → (k - 1) / 2 ≠ minChild h i n →
            cnt (listSwap h i (minChild h i n)) ((k - 1) / 2)
              ≤ cnt (listSwap h i (minChild h i n)) k := by
          intro k hkn hk0 hkj hpkj
          by_cases hki : k = i
          · have hi0 : 0 < i := by omega
            have hpi : (i - 1) / 2 ≠ i := by omega
            have hpij : (i - 1) / 2 ≠ minChild h i n := by omega
            rw [hki, hci, hco _ hpi hpij]
            exact hB (minChild h i n) hjn (by omega) hpj hi0
          · by_cases hpki : (k - 1) / 2 = i
            · rw [hpki, hci, hco k hki hkj]
              exact minChild_min h i n hstop k hpki hkn hk0
            · rw [hco _ hpki hpkj, hco k hki hkj]
              exact hA k hkn hk0 hki hpki
        have hB2 : ∀ k, k < n → 0 < k → (k - 1) / 2 = minChild h i n → 0 < minChild h i n →
            cnt (listSwap h i (minChild h i n)) ((minChild h i n - 1) / 2)
              ≤ cnt (listSwap h i (minChild h i n)) k := by
          intro k hkn hk0 hpk2 _
          have hkj : k ≠ minChild h i n := by omega
          have hki : k ≠ i := by omega
          rw [hpj, hci, hco k hki hkj]
          have hak := hA k hkn hk0 hki (by omega)
          rw [hpk2] at hak
          exact hak
        have hC2 : a < minChild h i n → 0 < minChild h i n ∧
            cnt (listSwap h i (minChild h i n)) ((minChild h i n - 1) / 2)
              ≤ cnt (listSwap h i (minChild h i n)) (minChild h i n) := by
          intro _
          refine ⟨by omega, ?_⟩
          rw [hpj, hci, hcj]
          exact hge2
        have hrec := ih (minChild h i n) a (listSwap h i (minChild h i n))
          (by omega) (by rw [hlen]; exact hn) (by omega) hA2 hB2 hC2
        refine ⟨hrec.1, hrec.2.1, ?_⟩
        intro heq
        exfalso
        have hle2 := heapDownAux_le n fuel (minChild h i n)
          (listSwap h i (minChild h i n)) (by omega)
        omega

theorem getD_eq_getElem2 (l : List TopValue) {i : Nat} (hi : i < l.length) :
    l.getD i default = l[i] := by
  rw [List.getD_eq_getElem?_getD, List.getElem?_eq_getElem hi]
  rfl

theorem getD_take2 (l : List TopValue) {m nn : Nat} (hm : m < nn) :
    (l.take nn).getD m default = l.getD m default := by
  rw [List.getD_eq_getElem?_getD, List.getD_eq_getElem?_getD, List.getElem?_take_of_lt hm]

theorem cnt_take (l : List TopValue) {m nn : Nat} (hm : m < nn) :
    cnt (l.take nn) m = cnt l m := by
  unfold cnt
  rw [getD_take2 l hm]

theorem isMinHeap_root_min (h : List TopValue) (hh : IsMinHeap h) :
    ∀ k, k < h.length → cnt h 0 ≤ cnt h k := by
  intro k
  induction k using Nat.strong_induction_on with
  | _ k ihk =>
    intro hk
    rcases Nat.eq_zero_or_pos k with rfl | hk0
    · exact le_refl _
    · refine le_trans (ihk ((k - 1) / 2) (by omega) (by omega)) ?_
      exact hh k hk hk0

theorem heapPop_spec (h : List TopValue) (hne : h ≠ []) (hh : IsMinHeap h) :
    IsMinHeap (heapPop h).1 ∧
    (heapPop h).2 ∈ h ∧
    (∀ y ∈ h, (heapPop h).2.Count ≤ y.Count) ∧
    List.Perm ((heapPop h).1 ++ [(heapPop h).2]) h ∧
    (heapPop h).1.length + 1 = h.length := by
  have hlen0 : 0 < h.length := List.length_pos.mpr hne
  have hnl : h.length - 1 ≤ (listSwap h 0 (h.length - 1)).length := by
    rw [listSwap_length]; omega
  have hA : ∀ k, k < h.length - 1 → 0 < k → k ≠ 0 → (k - 1) / 2 ≠ 0 →
      cnt (listSwap h 0 (h.length - 1)) ((k - 1) / 2)
        ≤ cnt (listSwap h 0 (h.length - 1)) k := by
    intro k hkn hk0 _ hpk
    rw [cnt_listSwap_other h (show k ≠ 0 by omega) (show k ≠ h.length - 1 by omega),
        cnt_listSwap_other h (show (k - 1) / 2 ≠ 0 from hpk)
          (show (k - 1) / 2 ≠ h.length - 1 by omega)]
    exact hh k (by omega) hk0
  have hB : ∀ k, k < h.length - 1 → 0 < k → (k - 1) / 2 = 0 → 0 < 0 →
      cnt (listSwap h 0 (h.length - 1)) ((0 - 1) / 2)
        ≤ cnt (listSwap h 0 (h.length - 1)) k :=
    fun k _ _ _ h0 => absurd h0 (lt_irrefl 0)
  have hC : 0 < 0 → 0 < 0 ∧
      cnt (listSwap h 0 (h.length - 1)) ((0 - 1) / 2)
        ≤ cnt (listSwap h 0 (h.length - 1)) 0 :=
    fun h0 => absurd h0 (lt_irrefl 0)
  have hspec := heapDownAux_spec (h.length - 1) h.length 0 0
    (listSwap h 0 (h.length - 1)) (by omega) hnl (le_refl 0) hA hB hC
  have hperm1 := heapDownAux_perm (h.length - 1) h.length 0
    (listSwap h 0 (h.length - 1)) (by omega) hnl
  have hperm : List.Perm
      (heapDownAux (listSwap h 0 (h.length - 1)) 0 (h.length - 1)).1 h :=
    hperm1.trans (listSwap_perm h 0 (h.length - 1) (by omega) (by omega))
  have hzlen : (heapDownAux (listSwap h 0 (h.length - 1)) 0 (h.length - 1)).1.length
      = h.length := hperm.length_eq
  have hx : (heapDownAux (listSwap h 0 (h.length - 1)) 0 (h.length - 1)).1.getD
      (h.length - 1) default = h.getD 0 default := by
    rw [heapDownAux_untouched (h.length - 1) h.length 0 (listSwap h 0 (h.length - 1))
          (h.length - 1) (by omega) hnl (le_refl _)]
    exact getD_listSwap_snd h hlen0 (by omega)
  have hpop1 : (heapPop h).1
      = (heapDownAux (listSwap h 0 (h.length - 1)) 0 (h.length - 1)).1.take
          (h.length - 1) := rfl
  have hpop2 : (heapPop h).2
      = (heapDownAux (listSwap h 0 (h.length - 1)) 0 (h.length - 1)).1.getD
          (h.length - 1) default := rfl
  have hfull : ∀ k, k < h.length - 1 → 0 < k →
      cnt (heapDownAux (listSwap h 0 (h.length - 1)) 0 (h.length - 1)).1 ((k - 1) / 2)
        ≤ cnt (heapDownAux (listSwap h 0 (h.length - 1)) 0 (h.length - 1)).1 k := by
    intro k hkn hk0
    by_cases hkz : k = (heapDownAux (listSwap h 0 (h.length - 1)) 0 (h.length - 1)).2
    · rw [hkz]
      exact hspec.2.1 (by omega)
    · exact hspec.1 k hkn hk0 hkz
  refine ⟨?_, ?_, ?_, ?_, ?_⟩
  · rw [hpop1]
    unfold IsMinHeap IsMinHeapN
    intro k hklen hk0
    have hkn : k < h.length - 1 := by
      have : ((heapDownAux (listSwap h 0 (h.length - 1)) 0 (h.length - 1)).1.take
          (h.length - 1)).length ≤ h.length - 1 := by
        simp
      omega
    rw [cnt_take _ hkn, cnt_take _ (by omega)]
    exact hfull k hkn hk0
  · rw [hpop2, hx, getD_eq_getElem2 h hlen0]
    exact List.getElem_mem hlen0
  · intro y hy
    rcases List.mem_iff_getElem.mp hy with ⟨k, hk, rfl⟩
    rw [hpop2, hx]
    have := isMinHeap_root_min h hh k hk
    unfold cnt at this
    rw [getD_eq_getElem2 h hk] at this
    exact this
  · rw [hpop1, hpop2]
    have hdrop : (heapDownAux (listSwap h 0 (h.length - 1)) 0 (h.length - 1)).1.drop
        (h.length - 1)
        = [(heapDownAux (listSwap h 0 (h.length - 1)) 0 (h.length - 1)).1.getD
            (h.length - 1) default] := by
      have hnz : h.length - 1
          < (heapDownAux (listSwap h 0 (h.length - 1)) 0 (h.length - 1)).1.length := by
        omega
      rw [List.drop_eq_getElem_cons hnz, getD_eq_getElem2 _ hnz]
      congr 1
      apply List.drop_eq_nil_of_le
      omega
    rw [← hdrop, List.take_append_drop]
    exact hperm
  · rw [hpop1]
    simp only [List.length_take]
    omega

theorem heapPush_isMinHeap (h : List TopValue) (x : TopValue) (hh : IsMinHeap h) :
    IsMinHeap (heapPush h x) := by
  unfold heapPush
  have hlen : (h ++ [x]).length = h.length + 1 := by simp
  apply heapUp_spec
  · omega
  · intro k hklen hk0 hkj
    rw [hlen] at hklen
    have hkl : k < h.length := by
      rcases Nat.lt_or_ge k h.length with hlt | hge
      · exact hlt
      · exfalso; exact hkj (by omega)
    have hpkl : (k - 1) / 2 < h.length := by omega
    unfold cnt
    rw [List.getD_append _ _ _ _ hkl, List.getD_append _ _ _ _ hpkl]
    exact hh k hkl hk0
  · intro k hklen hk0 hpk
    rw [hlen] at hklen hpk
    omega

theorem heapUpdate_isMinHeap (h : List TopValue) (i c : Nat) (hh : IsMinHeap h)
    (hi : i < h.length) : IsMinHeap (heapUpdate h i c) := by
  unfold heapUpdate
  show IsMinHeap (if (heapDown (h.set i { h.getD i default with Count := c }) i
      (h.set i { h.getD i default with Count := c }).length).2 = true
    then (heapDown (h.set i { h.getD i default with Count := c }) i
      (h.set i { h.getD i default with Count := c }).length).1
    else heapUp (heapDown (h.set i { h.getD i default with Count := c }) i
      (h.set i { h.getD i default with Count := c }).length).1 i)
  simp only [heapDown]
  have hlen1 : (h.set i { h.getD i default with Count := c }).length = h.length := by simp
  have hA : ∀ k, k < (h.set i { h.getD i default with Count := c }).length → 0 < k →
      k ≠ i → (k - 1) / 2 ≠ i →
      cnt (h.set i { h.getD i default with Count := c }) ((k - 1) / 2)
        ≤ cnt (h.set i { h.getD i default with Count := c }) k := by
    intro k hkn hk0 hki hpki
    unfold cnt
    rw [getD_set_ne _ _ _ (fun h2 => hki h2.symm),
        getD_set_ne _ _ _ (fun h2 => hpki h2.symm)]
    exact hh k (by omega) hk0
  have hB : ∀ k, k < (h.set i { h.getD i default with Count := c }).length → 0 < k →
      (k - 1) / 2 = i → 0 < i →
      cnt (h.set i { h.getD i default with Count := c }) ((i - 1) / 2)
        ≤ cnt (h.set i { h.getD i default with Count := c }) k := by
    intro k hkn hk0 hpk hi0
    have hki : k ≠ i := by omega
    have hpii : (i - 1) / 2 ≠ i := by omega
    unfold cnt
    rw [getD_set_ne _ _ _ (fun h2 => hki h2.symm),
        getD_set_ne _ _ _ (fun h2 => hpii h2.symm)]
    refine le_trans (hh i hi hi0) ?_
    have hk2 := hh k (by omega) hk0
    rw [hpk] at hk2
    exact hk2
  have hC : i < i → 0 < i ∧
      cnt (h.set i { h.getD i default with Count := c }) ((i - 1) / 2)
        ≤ cnt (h.set i { h.getD i default with Count := c }) i :=
    fun habs => absurd habs (lt_irrefl i)
  have hspec := heapDownAux_spec (h.set i { h.getD i default with Count := c }).length
    ((h.set i { h.getD i default with Count := c }).length + 1) i i
    (h.set i { h.getD i default with Count := c }) (by omega) (le_refl _) (le_refl i)
    hA hB hC
  have hperm := heapDownAux_perm (h.set i { h.getD i default with Count := c }).length
    ((h.set i { h.getD i default with Count := c }).length + 1) i
    (h.set i { h.getD i default with Count := c }) (by omega) (le_refl _)
  have hzlen : (heapDownAux (h.set i { h.getD i default with Count := c }) i
      (h.set i { h.getD i default with Count := c }).length).1.length = h.length := by
    rw [hperm.length_eq, hlen1]
  by_cases hmoved : i < (heapDownAux (h.set i { h.getD i default with Count := c }) i
      (h.set i { h.getD i default with Count := c }).length).2
  · rw [if_pos (by simpa using hmoved)]
    unfold IsMinHeap IsMinHeapN
    intro k hklen hk0
    rw [hzlen] at hklen
    by_cases hkz : k = (heapDownAux (h.set i { h.getD i default with Count := c }) i
        (h.set i { h.getD i default with Count := c }).length).2
    · rw [hkz]
      exact hspec.2.1 hmoved
    · exact hspec.1 k (by omega) hk0 hkz
  · rw [if_neg (by simpa using hmoved)]
    have hle := heapDownAux_le (h.set i { h.getD i default with Count := c }).length
      ((h.set i { h.getD i default with Count := c }).length + 1) i
      (h.set i { h.getD i default with Count := c }) (by omega)
    have hz2 : (heapDownAux (h.set i { h.getD i default with Count := c }) i
        (h.set i { h.getD i default with Count := c }).length).2 = i := by omega
    have hz1 := hspec.2.2 hz2
    rw [hz1]
    apply heapUp_spec i (h.set i { h.getD i default with Count := c }) (by omega)
    · intro k hklen hk0 hki
      have hstep := hspec.1 k (by omega) hk0 (by omega)
      rw [hz1] at hstep
      exact hstep
    · intro k hklen hk0 hpk
      by_cases hi0 : i = 0
      · have hstep := hspec.1 k (by omega) hk0 (by omega)
        rw [hz1, hpk] at hstep
        rw [show (i - 1) / 2 = i from by omega]
        exact hstep
      · exact hB k (by omega) hk0 hpk (by omega)

/-- C10: for every heap state satisfying the binary min-heap ordering on
`Count`, each of `Push(x)`, `Pop()` and `Update(i, count)` yields a heap
again satisfying that ordering, and `Pop` removes and returns an element
whose `Count` is minimal among all elements of the heap before the call
(`Pop`'s result is an element of the old heap, below every old element, and
the old heap is a permutation of the new heap plus that element). -/
theorem c10_minheap_invariants (h : List TopValue) (x : TopValue) (i c : Nat)
    (hheap : IsMinHeap h) (hne : h ≠ []) (hi : i < h.length) :
    IsMinHeap (heapPush h x) ∧
    IsMinHeap (heapPop h).1 ∧
    (heapPop h).2 ∈ h ∧
    (∀ y ∈ h, (heapPop h).2.Count ≤ y.Count) ∧
    List.Perm ((heapPop h).1 ++ [(heapPop h).2]) h ∧
    IsMinHeap (heapUpdate h i c) := by
  have hp := heapPop_spec h hne hheap
  exact ⟨heapPush_isMinHeap h x hheap, hp.1, hp.2.1, hp.2.2.1, hp.2.2.2.1,
    heapUpdate_isMinHeap h i c hheap hi⟩

/-- Witness for C10 at a concrete 3-element min-heap. -/
theorem c10_minheap_invariants_witness :
    IsMinHeap [⟨1, "a", 1⟩, ⟨2, "b", 3⟩, ⟨3, "c", 2⟩] ∧
    ([⟨1, "a", 1⟩, ⟨2, "b", 3⟩, ⟨3, "c", 2⟩] : List TopValue) ≠ [] ∧
    2 < ([⟨1, "a", 1⟩, ⟨2, "b", 3⟩, ⟨3, "c", 2⟩] : List TopValue).length ∧
    (IsMinHeap (heapPush [⟨1, "a", 1⟩, ⟨2, "b", 3⟩, ⟨3, "c", 2⟩] ⟨4, "d", 0⟩) ∧
     IsMinHeap (heapPop [⟨1, "a", 1⟩, ⟨2, "b", 3⟩, ⟨3, "c", 2⟩]).1 ∧
     (heapPop [⟨1, "a", 1⟩, ⟨2, "b", 3⟩, ⟨3, "c", 2⟩]).2
       ∈ ([⟨1, "a", 1⟩, ⟨2, "b", 3⟩, ⟨3, "c", 2⟩] : List TopValue) ∧
     (∀ y ∈ ([⟨1, "a", 1⟩, ⟨2, "b", 3⟩, ⟨3, "c", 2⟩] : List TopValue),
        (heapPop [⟨1, "a", 1⟩, ⟨2, "b", 3⟩, ⟨3, "c", 2⟩]).2.Count ≤ y.Count) ∧
     List.Perm ((heapPop [⟨1, "a", 1⟩, ⟨2, "b", 3⟩, ⟨3, "c", 2⟩]).1
         ++ [(heapPop [⟨1, "a", 1⟩, ⟨2, "b", 3⟩, ⟨3, "c", 2⟩]).2])
       [⟨1, "a", 1⟩, ⟨2, "b", 3⟩, ⟨3, "c", 2⟩] ∧
     IsMinHeap (heapUpdate [⟨1, "a", 1⟩, ⟨2, "b", 3⟩, ⟨3, "c", 2⟩] 2 0)) :=
  ⟨by decide, by decide, by decide,
   c10_minheap_invariants [⟨1, "a", 1⟩, ⟨2, "b", 3⟩, ⟨3, "c", 2⟩] ⟨4, "d", 0⟩ 2 0
     (by decide) (by decide) (by decide)⟩

theorem heapPush_perm (h : List TopValue) (x : TopValue) :
    List.Perm (heapPush h x) (h ++ [x]) := by
  unfold heapPush
  apply heapUp_perm
  have hlen : (h ++ [x]).length = h.length + 1 := by simp
  omega

theorem heapPop_parts (h : List TopValue) (hne : h ≠ []) :
    List.Perm ((heapPop h).1 ++ [(heapPop h).2]) h ∧
    (heapPop h).1.length + 1 = h.length := by
  have hlen0 : 0 < h.length := List.length_pos.mpr hne
  have hnl : h.length - 1 ≤ (listSwap h 0 (h.length - 1)).length := by
    rw [listSwap_length]; omega
  have hperm1 := heapDownAux_perm (h.length - 1) h.length 0
    (listSwap h 0 (h.length - 1)) (by omega) hnl
  have hperm : List.Perm
      (heapDownAux (listSwap h 0 (h.length - 1)) 0 (h.length - 1)).1 h :=
    hperm1.trans (listSwap_perm h 0 (h.length - 1) (by omega) (by omega))
  have hzlen : (heapDownAux (listSwap h 0 (h.length - 1)) 0 (h.length - 1)).1.length
      = h.length := hperm.length_eq
  have hpop1 : (heapPop h).1
      = (heapDownAux (listSwap h 0 (h.length - 1)) 0 (h.length - 1)).1.take
          (h.length - 1) := rfl
  have hpop2 : (heapPop h).2
      = (heapDownAux (listSwap h 0 (h.length - 1)) 0 (h.length - 1)).1.getD
          (h.length - 1) default := rfl
  constructor
  · rw [hpop1, hpop2]
    have hdrop : (heapDownAux (listSwap h 0 (h.length - 1)) 0 (h.length - 1)).1.drop
        (h.length - 1)
        = [(heapDownAux (listSwap h 0 (h.length - 1)) 0 (h.length - 1)).1.getD
            (h.length - 1) default] := by
      have hnz : h.length - 1
          < (heapDownAux (listSwap h 0 (h.length - 1)) 0 (h.length - 1)).1.length := by
        omega
      rw [List.drop_eq_getElem_cons hnz, getD_eq_getElem2 _ hnz]
      congr 1
      apply List.drop_eq_nil_of_le
      omega
    rw [← hdrop, List.take_append_drop]
    exact hperm
  · rw [hpop1]
    simp only [List.length_take]
    omega

theorem heapUpdate_perm (h : List TopValue) (i c : Nat) (hi : i < h.length) :
    List.Perm (heapUpdate h i c) (h.set i { h.getD i default with Count := c }) := by
  unfold heapUpdate
  show List.Perm (if (heapDown (h.set i { h.getD i default with Count := c }) i
      (h.set i { h.getD i default with Count := c }).length).2 = true
    then (heapDown (h.set i { h.getD i default with Count := c }) i
      (h.set i { h.getD i default with Count := c }).length).1
    else heapUp (heapDown (h.set i { h.getD i default with Count := c }) i
      (h.set i { h.getD i default with Count := c }).length).1 i) _
  simp only [heapDown]
  have hlen1 : (h.set i { h.getD i default with Count := c }).length = h.length := by simp
  have hperm := heapDownAux_perm (h.set i { h.getD i default with Count := c }).length
    ((h.set i { h.getD i default with Count := c }).length + 1) i
    (h.set i { h.getD i default with Count := c }) (by omega) (le_refl _)
  by_cases hmoved : i < (heapDownAux (h.set i { h.getD i default with Count := c }) i
      (h.set i { h.getD i default with Count := c }).length).2
  · rw [if_pos (by simpa using hmoved)]
    exact hperm
  · rw [if_neg (by simpa using hmoved)]
    refine (heapUp_perm i _ ?_).trans hperm
    rw [hperm.length_eq, hlen1]
    omega

theorem map_hash_set_count : ∀ (h : List TopValue) (i c : Nat), i < h.length →
    (h.set i { h.getD i default with Count := c }).map TopValue.hash
      = h.map TopValue.hash := by
  intro h
  induction h with
  | nil => intro i c hi; simp at hi
  | cons y t ih =>
    intro i c hi
    match i with
    | 0 => simp
    | i + 1 =>
      simp only [List.getD_cons_succ, List.set_cons_succ, List.map_cons]
      rw [ih i c (by simpa using hi)]

/-- State of the `TopK` tracker of `topk.go`: the heap capacity `maxSize`,
the `min` and `size` atomics, and the heap slice.  The Count-Min sketch and
its estimates are abstracted: each `Update` supplies an arbitrary `count`
(the invariants below hold for every count value the sketch could return). -/
structure TopKState where
  maxSize : Nat
  minv : Nat
  sizev : Nat
  heap : List TopValue
deriving DecidableEq

/-- Model of `NewTopK(k)`: empty heap of capacity `k`, atomics zeroed. -/
def tkNew (k : Nat) : TopKState := ⟨k, 0, 0, []⟩

/-- Part of `TopK.insert` after the capacity guard: look for an entry with
the same hash and update it in place, otherwise pop the minimum when full
(or store the size when not), push the new element and store the new root
count. -/
def tkInsertBody (t : TopKState) (value : String) (hash count : Nat) : TopKState :=
  match t.heap.findIdx? (fun e => e.hash == hash) with
  | some i => { t with heap := heapUpdate t.heap i count }
  | none =>
    if t.heap.length = t.maxSize then
      { t with heap := heapPush (heapPop t.heap).1 ⟨hash, value, count⟩,
               minv := cnt (heapPush (heapPop t.heap).1 ⟨hash, value, count⟩) 0 }
    else
      { t with sizev := t.heap.length % 2 ^ 32,
               heap := heapPush t.heap ⟨hash, value, count⟩,
               minv := cnt (heapPush t.heap ⟨hash, value, count⟩) 0 }

/-- Model of `TopK.insert` from `topk.go` including the guard
`t.heap.Len() == int(t.maxSize) && count < t.heap[0].Count`: with `maxSize = 0`
and an empty heap the short-circuited second operand reads `t.heap[0]` out of
range — a Go panic, modelled as `none`. -/
def tkInsert (t : TopKState) (value : String) (hash count : Nat) : Option TopKState :=
  if t.heap.length = t.maxSize then
    match t.heap.head? with
    | none => none
    | some e =>
      if count < e.Count then some t else some (tkInsertBody t value hash count)
  else some (tkInsertBody t value hash count)

/-- Model of `TopK.isTop`: `t.min.Load() <= count || uint(t.size.Load()) < t.maxSize`. -/
def tkIsTop (t : TopKState) (count : Nat) : Bool :=
  decide (t.minv ≤ count) || decide (t.sizev < t.maxSize)

/-- Model of `TopK.Update` at the hash level: the sketch update and its
returned estimate are abstracted into the supplied `count`; the heap is
touched only when `isTop` holds. -/
def tkUpdate (t : TopKState) (value : String) (hash count : Nat) : Option TopKState :=
  if tkIsTop t count then tkInsert t value hash count else some t

/-- Run of a sequence of `Update` calls from a fresh tracker of capacity `k`;
`none` means some call panicked. -/
def tkRun (k : Nat) (ops : List (String × Nat × Nat)) : Option TopKState :=
  ops.foldl (fun acc op => acc.bind fun t => tkUpdate t op.1 op.2.1 op.2.2)
    (some (tkNew k))

/-- Invariant of the tracker: fixed capacity, bounded heap, and heap entries
pairwise distinct by hash. -/
def tkInv (k : Nat) (t : TopKState) : Prop :=
  t.maxSize = k ∧ t.heap.length ≤ k ∧ (t.heap.map TopValue.hash).Nodup

theorem tkInsertBody_inv (k : Nat) (t : TopKState) (v : String) (hash count : Nat)
    (hinv : tkInv k t) (hcase : t.heap.length = t.maxSize → t.heap ≠ []) :
    tkInv k (tkInsertBody t v hash count) := by
  obtain ⟨hmax, hlen, hnd⟩ := hinv
  unfold tkInv tkInsertBody
  rcases hfind : t.heap.findIdx? (fun e => e.hash == hash) with _ | i
  · rw [hfind]
    have hnone : ∀ x ∈ t.heap, x.hash ≠ hash := by
      intro x hx
      have hx2 := List.findIdx?_eq_none_iff.mp hfind x hx
      simpa using hx2
    by_cases hfull : t.heap.length = t.maxSize
    · rw [if_pos hfull]
      have hne : t.heap ≠ [] := hcase hfull
      have hparts := heapPop_parts t.heap hne
      have hpushperm := heapPush_perm (heapPop t.heap).1 ⟨hash, v, count⟩
      have hmapheap : List.Perm ((heapPop t.heap).1.map TopValue.hash
          ++ [(heapPop t.heap).2.hash]) (t.heap.map TopValue.hash) := by
        have hmp := hparts.1.map TopValue.hash
        simpa using hmp
      have hndp : ((heapPop t.heap).1.map TopValue.hash
          ++ [(heapPop t.heap).2.hash]).Nodup := hmapheap.nodup_iff.mpr hnd
      have hnd1 : ((heapPop t.heap).1.map TopValue.hash).Nodup :=
        (List.nodup_append.mp hndp).1
      have hnotin : hash ∉ (heapPop t.heap).1.map TopValue.hash := by
        intro hmem
        rcases List.mem_map.mp hmem with ⟨e, he, heq⟩
        have hmem2 : e ∈ t.heap := by
          have hm3 : e ∈ (heapPop t.heap).1 ++ [(heapPop t.heap).2] :=
            List.mem_append_left _ he
          exact hparts.1.mem_iff.mp hm3
        exact hnone e hmem2 heq
      refine ⟨hmax, ?_, ?_⟩
      · show (heapPush (heapPop t.heap).1 ⟨hash, v, count⟩).length ≤ k
        have hl : (heapPush (heapPop t.heap).1 ⟨hash, v, count⟩).length
            = (heapPop t.heap).1.length + 1 := by
          rw [hpushperm.length_eq]
          simp
        omega
      · show ((heapPush (heapPop t.heap).1 ⟨hash, v, count⟩).map TopValue.hash).Nodup
        have hmp : List.Perm
            ((heapPush (heapPop t.heap).1 ⟨hash, v, count⟩).map TopValue.hash)
            ((heapPop t.heap).1.map TopValue.hash ++ [hash]) := by
          have hmp2 := hpushperm.map TopValue.hash
          simpa using hmp2
        refine hmp.nodup_iff.mpr ?_
        rw [List.nodup_append]
        exact ⟨hnd1, List.nodup_singleton _, by simpa using hnotin⟩
    · rw [if_neg hfull]
      have hnotin : hash ∉ t.heap.map TopValue.hash := by
        intro hmem
        rcases List.mem_map.mp hmem with ⟨e, he, heq⟩
        exact hnone e he heq
      have hpushperm := heapPush_perm t.heap ⟨hash, v, count⟩
      refine ⟨hmax, ?_, ?_⟩
      · show (heapPush t.heap ⟨hash, v, count⟩).length ≤ k
        have hl : (heapPush t.heap ⟨hash, v, count⟩).length = t.heap.length + 1 := by
          rw [hpushperm.length_eq]
          simp
        omega
      · show ((heapPush t.heap ⟨hash, v, count⟩).map TopValue.hash).Nodup
        have hmp : List.Perm ((heapPush t.heap ⟨hash, v, count⟩).map TopValue.hash)
            (t.heap.map TopValue.hash ++ [hash]) := by
          have hmp2 := hpushperm.map TopValue.hash
          simpa using hmp2
        refine hmp.nodup_iff.mpr ?_
        rw [List.nodup_append]
        exact ⟨hnd, List.nodup_singleton _, by simpa using hnotin⟩
  · rw [hfind]
    have hidx : i < t.heap.length :=
      (List.findIdx?_eq_some_iff_findIdx_eq.mp hfind).1
    have hperm := heapUpdate_perm t.heap i count hidx
    have hmap : List.Perm ((heapUpdate t.heap i count).map TopValue.hash)
        (t.heap.map TopValue.hash) := by
      have hmp := hperm.map TopValue.hash
      rw [map_hash_set_count t.heap i count hidx] at hmp
      exact hmp
    refine ⟨hmax, ?_, ?_⟩
    · show (heapUpdate t.heap i count).length ≤ k
      have hl : (heapUpdate t.heap i count).length = t.heap.length := by
        rw [hperm.length_eq]
        simp
      omega
    · show ((heapUpdate t.heap i count).map TopValue.hash).Nodup
      exact hmap.nodup_iff.mpr hnd

theorem tkInsert_inv (k : Nat) (t t2 : TopKState) (v : String) (hash count : Nat)
    (hinv : tkInv k t) (h : tkInsert t v hash count = some t2) : tkInv k t2 := by
  unfold tkInsert at h
  by_cases hfull : t.heap.length = t.maxSize
  · rw [if_pos hfull] at h
    match hhead : t.heap.head? with
    | none => rw [hhead] at h; exact absurd h (by simp)
    | some e =>
      rw [hhead] at h
      have h2 : (if count < e.Count then some t
          else some (tkInsertBody t v hash count)) = some t2 := h
      have hne : t.heap ≠ [] := by
        intro hnil
        rw [hnil] at hhead
        exact absurd hhead (by simp)
      by_cases hcnt : count < e.Count
      · rw [if_pos hcnt] at h2
        cases h2
        exact hinv
      · rw [if_neg hcnt] at h2
        cases h2
        exact tkInsertBody_inv k t v hash count hinv (fun _ => hne)
  · rw [if_neg hfull] at h
    cases h
    exact tkInsertBody_inv k t v hash count hinv (fun hcontra => absurd hcontra hfull)

theorem tkUpdate_inv (k : Nat) (t t2 : TopKState) (v : String) (hash count : Nat)
    (hinv : tkInv k t) (h : tkUpdate t v hash count = some t2) : tkInv k t2 := by
  unfold tkUpdate at h
  by_cases htop : tkIsTop t count = true
  · rw [if_pos htop] at h
    exact tkInsert_inv k t t2 v hash count hinv h
  · rw [if_neg htop] at h
    cases h
    exact hinv

theorem tkRunFrom_inv (k : Nat) : ∀ (ops : List (String × Nat × Nat))
    (s : Option TopKState) (t : TopKState),
    (∀ u, s = some u → tkInv k u) →
    ops.foldl (fun acc op => acc.bind fun u => tkUpdate u op.1 op.2.1 op.2.2) s = some t →
    tkInv k t := by
  intro ops
  induction ops with
  | nil =>
    intro s t hs hrun
    exact hs t hrun
  | cons op rest ih =>
    intro s t hs hrun
    rw [List.foldl_cons] at hrun
    refine ih _ t ?_ hrun
    intro u hu
    match s with
    | none => exact absurd hu (by simp)
    | some w =>
      have hw := hs w rfl
      exact tkUpdate_inv k w u op.1 op.2.1 op.2.2 hw (by simpa using hu)

/-- C9: for every `TopK` tracker constructed with capacity `k` and every
finite sequence of `Update` calls (each supplying a value, its hash, and the
count the sketch reports), whenever the run completes without panicking the
heap holds at most `k` entries and no two heap entries share a hash. -/
theorem c9_topk_heap_bounded_dedup (k : Nat) (ops : List (String × Nat × Nat))
    (t : TopKState) (h : tkRun k ops = some t) :
    t.heap.length ≤ k ∧ (t.heap.map TopValue.hash).Nodup := by
  have hinv := tkRunFrom_inv k ops (some (tkNew k)) t
    (fun u hu => by
      cases hu
      exact ⟨rfl, by simp [tkNew], by simp [tkNew]⟩) h
  exact ⟨hinv.2.1, hinv.2.2⟩

theorem heapPush_nil_eval : heapPush ([] : List TopValue) ⟨7, "a", 1⟩ = [⟨7, "a", 1⟩] := by
  show heapUp [⟨7, "a", 1⟩] 0 = [⟨7, "a", 1⟩]
  rw [heapUp]
  rw [dif_pos (Or.inl rfl)]

/-- Witness for C9: capacity 1 and a single `Update` with hash 7. -/
theorem c9_topk_heap_bounded_dedup_witness :
    tkRun 1 [("a", 7, 1)] = some ⟨1, 1, 0, [⟨7, "a", 1⟩]⟩ ∧
    ((⟨1, 1, 0, [⟨7, "a", 1⟩]⟩ : TopKState).heap.length ≤ 1 ∧
     ((⟨1, 1, 0, [⟨7, "a", 1⟩]⟩ : TopKState).heap.map TopValue.hash).Nodup) := by
  have hrun : tkRun 1 [("a", 7, 1)] = some ⟨1, 1, 0, [⟨7, "a", 1⟩]⟩ := by
    show tkUpdate (tkNew 1) "a" 7 1 = some ⟨1, 1, 0, [⟨7, "a", 1⟩]⟩
    simp [tkUpdate, tkIsTop, tkNew, tkInsert, tkInsertBody, cnt, heapPush_nil_eval]
  exact ⟨hrun, c9_topk_heap_bounded_dedup 1 [("a", 7, 1)] _ hrun⟩
